import Mathlib

/-!
Verification of the dependency-resolution core of Py.UiPath.CoordencaoTech.

The Python sources under `src/services/` are shallowly embedded below:
* `dependency_scanner.py` — version comparison (`compare_versions`), version
  specifier classification (`parse_version_spec`), best-version selection
  (`resolve_best_version`), and the project scanner
  (`scan_project_dependencies`).
* `dependency_resolver.py` — the transitive dependency resolver
  (`resolve_all` / `_resolve_recursive`) with its visited set and statistics,
  and `count_total_packages`.
* `orchestrator.py` — the cache installer (`install_nupkg_to_cache`).

Python string operations are modelled by executable functions over `List Char`
(the `.data` of a `String`), because the corresponding Lean `String` library
functions are compiled by well-founded recursion and do not reduce in the
kernel.  External collaborators (the Orchestrator registry client, the zip
reader, the filesystem) are modelled as explicit environment records that the
embedded functions consume; the embedded control flow itself follows the
Python sources line by line.
-/

namespace PyCoord

/-! ## String helpers modelling Python `str` operations -/

/-- Python `s.lower()` (ASCII case folding, as used for package ids). -/
def sLower (s : String) : String := String.mk (s.data.map Char.toLower)

/-- Python `s.split(c)` for a one-character separator, on character lists. -/
def splitOnChar (c : Char) : List Char → List (List Char)
  | [] => [[]]
  | x :: xs =>
    match splitOnChar c xs with
    | [] => [[]]
    | g :: gs => if x = c then [] :: g :: gs else (x :: g) :: gs

/-- Numeric value of a digit string (used only under an all-digits guard). -/
def segValue (cs : List Char) : Nat :=
  cs.foldl (fun a c => a * 10 + (c.toNat - 48)) 0

/-- Python `int(p) if p.isdigit() else 0` for one dotted segment. -/
def segToNat (cs : List Char) : Nat :=
  if cs ≠ [] ∧ cs.all Char.isDigit then segValue cs else 0

/-! ## `compare_versions` (src/services/dependency_scanner.py, lines 245-273) -/

/-- The inner `normalize` of `compare_versions`: drop any pre-release suffix
(text after the first `-`), split the rest on `.`, and map each segment to a
number, non-numeric segments becoming `0`. -/
def normalize (v : String) : List Nat :=
  let base := (splitOnChar '-' v.data).headD []
  (splitOnChar '.' base).map segToNat

/-- The final comparison loop of `compare_versions` over the zipped,
zero-padded segment lists. -/
def cmpZip : List (Nat × Nat) → Int
  | [] => 0
  | (a, b) :: rest => if a < b then -1 else if b < a then 1 else cmpZip rest

/-- `compare_versions(v1, v2)`: normalize both versions, zero-pad to equal
length, then compare segment lists lexicographically, returning -1/0/1. -/
def compare_versions (v1 v2 : String) : Int :=
  let n1 := normalize v1
  let n2 := normalize v2
  let maxLen := max n1.length n2.length
  cmpZip ((n1 ++ List.replicate (maxLen - n1.length) 0).zip
          (n2 ++ List.replicate (maxLen - n2.length) 0))

/-- Reference form of the padded comparison: recursion over both lists with
missing segments read as zero.  `compare_versions` is proved equal to it. -/
def cmpL : List Nat → List Nat → Int
  | [], bs => if ∀ x ∈ bs, x = 0 then 0 else -1
  | a :: as, [] => if ∀ x ∈ a :: as, x = 0 then 0 else 1
  | a :: as, b :: bs => if a < b then -1 else if b < a then 1 else cmpL as bs

theorem cmpZip_zip_zeros_right (as : List Nat) :
    cmpZip (as.zip (List.replicate as.length 0)) =
      if ∀ x ∈ as, x = 0 then 0 else 1 := by
  induction as with
  | nil => rfl
  | cons a as ih =>
    have step : cmpZip ((a :: as).zip (List.replicate (a :: as).length 0)) =
        if a < 0 then -1 else if 0 < a then 1
        else cmpZip (as.zip (List.replicate as.length 0)) := rfl
    rw [step, ih]
    rcases Nat.eq_zero_or_pos a with h | h
    · subst h; simp [List.forall_mem_cons]
    · have h' : a ≠ 0 := Nat.pos_iff_ne_zero.mp h
      simp [List.forall_mem_cons, Nat.not_lt_zero, h, h']

theorem cmpZip_zip_zeros_left (bs : List Nat) :
    cmpZip ((List.replicate bs.length 0).zip bs) =
      if ∀ x ∈ bs, x = 0 then 0 else -1 := by
  induction bs with
  | nil => rfl
  | cons b bs ih =>
    have step : cmpZip ((List.replicate (b :: bs).length 0).zip (b :: bs)) =
        if 0 < b then -1 else if b < 0 then 1
        else cmpZip ((List.replicate bs.length 0).zip bs) := rfl
    rw [step, ih]
    rcases Nat.eq_zero_or_pos b with h | h
    · subst h; simp [List.forall_mem_cons]
    · have h' : b ≠ 0 := Nat.pos_iff_ne_zero.mp h
      simp [List.forall_mem_cons, Nat.not_lt_zero, h, h']

theorem cmpZip_pad_eq_cmpL (n1 n2 : List Nat) :
    cmpZip ((n1 ++ List.replicate (max n1.length n2.length - n1.length) 0).zip
            (n2 ++ List.replicate (max n1.length n2.length - n2.length) 0)) =
      cmpL n1 n2 := by
  induction n1 generalizing n2 with
  | nil =>
    simp only [List.length_nil, Nat.zero_max, Nat.sub_self, List.replicate_zero,
      List.append_nil, List.nil_append, Nat.sub_zero]
    show cmpZip ((List.replicate n2.length 0).zip n2) = cmpL [] n2
    rw [cmpZip_zip_zeros_left n2]
    rfl
  | cons a as ih =>
    cases n2 with
    | nil =>
      simp only [List.length_nil, Nat.max_zero, Nat.sub_self, List.replicate_zero,
        List.append_nil, List.nil_append, Nat.sub_zero]
      show cmpZip ((a :: as).zip (List.replicate (a :: as).length 0)) = cmpL (a :: as) []
      rw [cmpZip_zip_zeros_right (a :: as)]
      rfl
    | cons b bs =>
      have hmax : max (a :: as).length (b :: bs).length - (a :: as).length =
          max as.length bs.length - as.length := by
        simp only [List.length_cons, Nat.succ_max_succ]; omega
      have hmax2 : max (a :: as).length (b :: bs).length - (b :: bs).length =
          max as.length bs.length - bs.length := by
        simp only [List.length_cons, Nat.succ_max_succ]; omega
      rw [hmax, hmax2]
      simp only [List.cons_append, List.zip_cons_cons, cmpZip, cmpL]
      by_cases h1 : a < b
      · simp [h1]
      · by_cases h2 : b < a
        · simp [h1, h2]
        · simp only [if_neg h1, if_neg h2]
          exact ih bs

theorem compare_versions_eq_cmpL (v1 v2 : String) :
    compare_versions v1 v2 = cmpL (normalize v1) (normalize v2) := by
  unfold compare_versions
  exact cmpZip_pad_eq_cmpL (normalize v1) (normalize v2)

theorem cmpL_range (as bs : List Nat) :
    cmpL as bs = -1 ∨ cmpL as bs = 0 ∨ cmpL as bs = 1 := by
  induction as generalizing bs with
  | nil => simp only [cmpL]; split <;> simp
  | cons a as ih =>
    cases bs with
    | nil => simp only [cmpL]; split <;> simp
    | cons b bs =>
      simp only [cmpL]
      split
      · simp
      · split
        · simp
        · exact ih bs

theorem cmpL_antisymm (as bs : List Nat) : cmpL bs as = -cmpL as bs := by
  induction as generalizing bs with
  | nil =>
    cases bs with
    | nil => simp [cmpL]
    | cons b bs => simp only [cmpL]; split <;> simp
  | cons a as ih =>
    cases bs with
    | nil => simp only [cmpL]; split <;> simp
    | cons b bs =>
      simp only [cmpL]
      rcases Nat.lt_trichotomy a b with h | h | h
      · simp [h, Nat.lt_asymm h]
      · subst h; simp [Nat.lt_irrefl, ih bs]
      · simp [h, Nat.lt_asymm h]

theorem cmpL_allzero_le (as : List Nat) (h : ∀ x ∈ as, x = 0) :
    ∀ cs, cmpL as cs ≤ 0 := by
  induction as with
  | nil =>
    intro cs; simp only [cmpL]; split <;> simp
  | cons a as ih =>
    intro cs
    have ha : a = 0 := h a (by simp)
    have hall : ∀ x ∈ as, x = 0 := fun x hx => h x (by simp [hx])
    cases cs with
    | nil =>
      subst ha
      have hcond : ∀ x ∈ (0 : Nat) :: as, x = 0 := by
        intro x hx
        rcases List.mem_cons.mp hx with h | h
        · exact h
        · exact hall x h
      show (if ∀ x ∈ (0 : Nat) :: as, x = 0 then (0 : Int) else 1) ≤ 0
      rw [if_pos hcond]
    | cons c cs =>
      subst ha
      simp only [cmpL]
      rcases Nat.eq_zero_or_pos c with hc | hc
      · subst hc
        simp only [Nat.lt_irrefl, if_false]
        exact ih hall cs
      · simp [hc]

theorem cmpL_le_allzero (as bs : List Nat) (h : cmpL as bs ≤ 0)
    (hz : ∀ x ∈ bs, x = 0) : ∀ x ∈ as, x = 0 := by
  induction as generalizing bs with
  | nil => simp
  | cons a as ih =>
    cases bs with
    | nil =>
      simp only [cmpL] at h
      split at h
      · assumption
      · exact absurd h (by omega)
    | cons b bs =>
      have hb : b = 0 := hz b (by simp)
      have hzs : ∀ x ∈ bs, x = 0 := fun x hx => hz x (by simp [hx])
      subst hb
      simp only [cmpL, Nat.not_lt_zero, if_false] at h
      rcases Nat.eq_zero_or_pos a with ha | ha
      · subst ha
        simp only [Nat.lt_irrefl, if_false] at h
        intro x hx
        rcases List.mem_cons.mp hx with hx | hx
        · exact hx
        · exact ih bs h hzs x hx
      · exfalso
        rw [if_pos ha] at h
        omega

theorem cmpL_trans_le (as bs cs : List Nat) (h1 : cmpL as bs ≤ 0)
    (h2 : cmpL bs cs ≤ 0) : cmpL as cs ≤ 0 := by
  induction as generalizing bs cs with
  | nil =>
    simp only [cmpL]; split <;> simp
  | cons a as ih =>
    cases bs with
    | nil =>
      have hz : ∀ x ∈ a :: as, x = 0 := by
        simp only [cmpL] at h1
        split at h1
        · assumption
        · exact absurd h1 (by omega)
      exact cmpL_allzero_le _ hz cs
    | cons b bs =>
      cases cs with
      | nil =>
        have hzb : ∀ x ∈ b :: bs, x = 0 := by
          simp only [cmpL] at h2
          split at h2
          · assumption
          · exact absurd h2 (by omega)
        have hza : ∀ x ∈ a :: as, x = 0 := cmpL_le_allzero _ _ h1 hzb
        show (if ∀ x ∈ a :: as, x = 0 then (0 : Int) else 1) ≤ 0
        rw [if_pos hza]
      | cons c cs =>
        simp only [cmpL] at h1 h2 ⊢
        rcases Nat.lt_trichotomy a b with hab | hab | hab
        · rcases Nat.lt_trichotomy b c with hbc | hbc | hbc
          · have : a < c := Nat.lt_trans hab hbc
            simp [this]
          · subst hbc; simp [hab]
          · exfalso
            rw [if_neg (Nat.lt_asymm hbc), if_pos hbc] at h2
            omega
        · subst hab
          rcases Nat.lt_trichotomy a c with hac | hac | hac
          · simp [hac]
          · subst hac
            simp only [Nat.lt_irrefl, if_false] at h1 h2 ⊢
            exact ih bs cs h1 h2
          · exfalso
            rw [if_neg (Nat.lt_asymm hac), if_pos hac] at h2
            omega
        · exfalso
          rw [if_neg (Nat.lt_asymm hab), if_pos hab] at h1
          omega

/--
Claim C5: for well-formed dotted version strings `compare_versions` is total
and deterministic (it is a function whose value is always -1, 0 or 1),
antisymmetric (`compare(a,b) = -compare(b,a)`), and transitive (stated both
for the non-strict order `≤ 0` and for the strict result `1`); moreover
`compare_versions "1.2.0" "1.2" = 0` after zero-padding and
`compare_versions "2.0.0" "1.9.9" = 1`.  The algebraic parts are proved for
all strings, which subsumes the well-formed ones.
-/
theorem claim_c5_compare_versions_total_antisymm_trans :
    (∀ v1 v2 : String, compare_versions v1 v2 = -1 ∨ compare_versions v1 v2 = 0 ∨
        compare_versions v1 v2 = 1) ∧
    (∀ v1 v2 : String, compare_versions v1 v2 = -compare_versions v2 v1) ∧
    (∀ v1 v2 v3 : String, compare_versions v1 v2 ≤ 0 → compare_versions v2 v3 ≤ 0 →
        compare_versions v1 v3 ≤ 0) ∧
    (∀ v1 v2 v3 : String, compare_versions v1 v2 = 1 → compare_versions v2 v3 = 1 →
        compare_versions v1 v3 = 1) ∧
    compare_versions "1.2.0" "1.2" = 0 ∧
    compare_versions "2.0.0" "1.9.9" = 1 := by
  refine ⟨?_, ?_, ?_, ?_, by decide, by decide⟩
  · intro v1 v2
    rw [compare_versions_eq_cmpL]
    exact cmpL_range _ _
  · intro v1 v2
    rw [compare_versions_eq_cmpL, compare_versions_eq_cmpL]
    exact cmpL_antisymm (normalize v2) (normalize v1)
  · intro v1 v2 v3 h1 h2
    rw [compare_versions_eq_cmpL] at h1 h2 ⊢
    exact cmpL_trans_le _ _ _ h1 h2
  · intro v1 v2 v3 h1 h2
    rw [compare_versions_eq_cmpL] at h1 h2 ⊢
    by_contra hne
    have hac : cmpL (normalize v1) (normalize v3) ≤ 0 := by
      rcases cmpL_range (normalize v1) (normalize v3) with h | h | h
      · omega
      · omega
      · exact absurd h hne
    have hcb : cmpL (normalize v3) (normalize v2) ≤ 0 := by
      rw [cmpL_antisymm (normalize v2) (normalize v3), h2]
      omega
    have hab := cmpL_trans_le _ _ _ hac hcb
    rw [h1] at hab
    omega

/-- Witness for C5: the transitivity clause applied at concrete versions. -/
theorem claim_c5_witness :
    compare_versions "1.0.0" "3.0.0" ≤ 0 :=
  claim_c5_compare_versions_total_antisymm_trans.2.2.1 "1.0.0" "2.0.0" "3.0.0"
    (by decide) (by decide)

/-! ## `parse_version_spec` (src/services/dependency_scanner.py, lines 99-140)

The source classifies specifiers with four anchored regexes, tried in order.
Each regex is embedded as a deterministic character-list matcher; greediness
of `\d+` and of the optional groups agrees with the regex engine because no
later pattern element can consume characters the greedy run took. -/

/-- Greedy `\d+`: maximal digit run, failing on an empty run. -/
def digits1 (cs : List Char) : Option (List Char × List Char) :=
  let ds := cs.takeWhile Char.isDigit
  if ds = [] then none else some (ds, cs.dropWhile Char.isDigit)

/-- `\.\d+`. -/
def dotDigits : List Char → Option (List Char × List Char)
  | '.' :: rest =>
    match digits1 rest with
    | none => none
    | some (d, r) => some ('.' :: d, r)
  | _ => none

/-- `\d+\.\d+\.\d+(?:\.\d+)?`, greedy on the optional fourth segment. -/
def versionCore (cs : List Char) : Option (List Char × List Char) :=
  match digits1 cs with
  | none => none
  | some (d1, r1) =>
    match dotDigits r1 with
    | none => none
    | some (p2, r2) =>
      match dotDigits r2 with
      | none => none
      | some (p3, r3) =>
        match dotDigits r3 with
        | some (p4, r4) => some (d1 ++ p2 ++ p3 ++ p4, r4)
        | none => some (d1 ++ p2 ++ p3, r3)

/-- `-[\w\.]+` (ASCII word characters, as used by the source's regex). -/
def preRelease : List Char → Option (List Char × List Char)
  | '-' :: rest =>
    let ws := rest.takeWhile fun c => c.isAlphanum || c == '_' || c == '.'
    if ws = [] then none
    else some ('-' :: ws, rest.dropWhile fun c => c.isAlphanum || c == '_' || c == '.')
  | _ => none

/-- `^(\d+\.\d+\.\d+(?:\.\d+)?(?:-[\w\.]+)?)$`: full anchored version match. -/
def matchFullVersion (cs : List Char) : Option (List Char) :=
  match versionCore cs with
  | none => none
  | some (m, r) =>
    match preRelease r with
    | some (p, r2) => if r2 = [] then some (m ++ p) else none
    | none => if r = [] then some m else none

/-- `^\[(\d+\.\d+\.\d+(?:\.\d+)?(?:-[\w\.]+)?)\]$`: exact version in brackets. -/
def matchExact (cs : List Char) : Option (List Char) :=
  match cs with
  | '[' :: rest =>
    match versionCore rest with
    | none => none
    | some (m, r) =>
      match preRelease r with
      | some (p, r2) => if r2 = [']'] then some (m ++ p) else none
      | none => if r = [']'] then some m else none
  | _ => none

/-- `^\[(\d+\.\d+\.\d+(?:\.\d+)?)`: lower-bounded range, unanchored tail. -/
def matchLowerBound (cs : List Char) : Option (List Char) :=
  match cs with
  | '[' :: rest =>
    match versionCore rest with
    | none => none
    | some (m, _) => some m
  | _ => none

/-- `^\(,\s*(\d+\.\d+\.\d+(?:\.\d+)?)`: upper-bound-only range. -/
def matchUpperBound (cs : List Char) : Option (List Char) :=
  match cs with
  | '(' :: ',' :: rest =>
    match versionCore (rest.dropWhile Char.isWhitespace) with
    | none => none
    | some (m, _) => some m
  | _ => none

/-- Python `s.strip()`. -/
def sTrim (s : String) : List Char :=
  ((s.data.dropWhile Char.isWhitespace).reverse.dropWhile Char.isWhitespace).reverse

/-- `parse_version_spec(version_spec)`: classify a NuGet-style specifier into
`("exact" | "minimum" | "range" | "unknown", extracted version?)`, trying the
source's four regexes in order (exact, simple, lower bound, upper bound). -/
def parse_version_spec (version_spec : String) : String × Option String :=
  let cs := sTrim version_spec
  match matchExact cs with
  | some v => ("exact", some (String.mk v))
  | none =>
    match matchFullVersion cs with
    | some v => ("minimum", some (String.mk v))
    | none =>
      match matchLowerBound cs with
      | some v => ("range", some (String.mk v))
      | none =>
        match matchUpperBound cs with
        | some _ => ("range", none)
        | none => ("unknown", none)

/-- Python truthiness of an optional string (`None` and `""` are falsy). -/
def optTruthy : Option String → Bool
  | none => false
  | some s => s != ""

/-- `resolve_best_version(available_versions, version_spec)`
(src/services/dependency_scanner.py, lines 197-242): pick the best version
from a descending availability list.  An exact spec prefers an exact match,
then a numeric-prefix match; a minimum spec returns the first version in the
descending list whose comparison with the extracted minimum is ≥ 0; all other
cases fall back to the newest available version. -/
def resolve_best_version (available_versions : List String) (version_spec : String) :
    Option String :=
  if available_versions = [] then none
  else
    let st := parse_version_spec version_spec
    let exactTry : Option String :=
      if st.1 = "exact" ∧ optTruthy st.2 = true then
        let extracted := st.2.getD ""
        if extracted ∈ available_versions then some extracted
        else
          let base := String.mk ((splitOnChar '-' extracted.data).headD [])
          available_versions.find? fun v => v == extracted || base.data.isPrefixOf v.data
      else none
    match exactTry with
    | some v => some v
    | none =>
      let minTry : Option String :=
        if st.1 = "minimum" ∧ optTruthy st.2 = true then
          available_versions.find? fun v => decide (0 ≤ compare_versions v (st.2.getD ""))
        else none
      match minTry with
      | some v => some v
      | none => available_versions.head?

/-- Counterexample for claim C3: the claimed result "1.5.0" is not what the
code computes on the stated input. -/
theorem claim_c3_counterexample :
    resolve_best_version ["2.0.0", "1.5.0", "1.0.0"] "1.2.0" ≠ some "1.5.0" := by
  decide

/--
Claim C3 (amended): `resolve_best_version` applied to the descending list
`["2.0.0", "1.5.0", "1.0.0"]` and the minimum specifier `"1.2.0"` returns
`"2.0.0"`: the specifier is classified as `("minimum", "1.2.0")` and the scan
of the descending list returns the first — hence the highest, not the
next-higher — available version whose comparison with the minimum is ≥ 0.
-/
theorem claim_c3_resolve_best_version_minimum :
    parse_version_spec "1.2.0" = ("minimum", some "1.2.0") ∧
    resolve_best_version ["2.0.0", "1.5.0", "1.0.0"] "1.2.0" = some "2.0.0" := by
  decide

/-! ## `scan_project_dependencies` (src/services/dependency_scanner.py, lines 47-96) -/

/-- Parsed content of a `project.json`: the `name` value if present, and the
`dependencies` object as an ordered association list (Python dicts preserve
insertion order). -/
structure ProjectJson where
  name : Option String
  dependencies : List (String × String)
deriving DecidableEq

/-- One entry of `os.listdir(base_dir)` together with what the filesystem and
the JSON parser report for it: `manifest = none` means the folder has no
`project.json`; `some none` means the file exists but raises
`JSONDecodeError`/`IOError`; `some (some pj)` is a parsed manifest. -/
structure DirEntry where
  entryName : String
  isDir : Bool
  manifest : Option (Option ProjectJson)
deriving DecidableEq

/-- The `DependencyInfo` fields the scanner writes.  Python sets are modelled
as duplicate-free lists in insertion order, the `project_versions` dict as an
ordered association list; the remaining dataclass fields keep their defaults
during scanning and are omitted. -/
structure DependencyInfo where
  package_id : String
  version_specs : List String := []
  projects : List String := []
  project_versions : List (String × String) := []
deriving DecidableEq

/-- Python `set.add(x)`: insert if not already present. -/
def setAdd (l : List String) (x : String) : List String :=
  if x ∈ l then l else l ++ [x]

/-- Python `dict[k] = v`: update in place or append. -/
def dictSet (l : List (String × String)) (k v : String) : List (String × String) :=
  match l with
  | [] => [(k, v)]
  | (k', v') :: rest => if k' = k then (k, v) :: rest else (k', v') :: dictSet rest k v

/-- Apply one dependency entry `(pkg_id, version_spec)` of project
`project_name` to the consolidated map (Python lines 79-86: create the
`DependencyInfo` if absent, then add the spec, the project name, and the
project→spec association). -/
def addDep (deps : List (String × DependencyInfo)) (pkgId spec projectName : String) :
    List (String × DependencyInfo) :=
  match deps with
  | [] =>
    [(pkgId, { package_id := pkgId,
               version_specs := setAdd [] spec,
               projects := setAdd [] projectName,
               project_versions := dictSet [] projectName spec })]
  | (k, info) :: rest =>
    if k = pkgId then
      (k, { info with
            version_specs := setAdd info.version_specs spec,
            projects := setAdd info.projects projectName,
            project_versions := dictSet info.project_versions projectName spec }) :: rest
    else (k, info) :: addDep rest pkgId spec projectName

/-- Process one `os.listdir` entry (Python lines 64-91): only directories
containing a parseable `project.json` contribute; an invalid manifest is
skipped with a warning (`continue`). -/
def scanEntry (deps : List (String × DependencyInfo)) (e : DirEntry) :
    List (String × DependencyInfo) :=
  if e.isDir then
    match e.manifest with
    | none => deps
    | some none => deps
    | some (some data) =>
      let projectName := data.name.getD e.entryName
      data.dependencies.foldl (fun acc pv => addDep acc pv.1 pv.2 projectName) deps
  else deps

/-- `scan_project_dependencies(base_dir)`: `baseDir = none` models a
non-existent base directory (`os.path.exists` false → empty dict); otherwise
fold the directory listing in order. -/
def scan_project_dependencies (baseDir : Option (List DirEntry)) :
    List (String × DependencyInfo) :=
  match baseDir with
  | none => []
  | some entries => entries.foldl scanEntry []

def projA7 : DirEntry :=
  { entryName := "FolderA", isDir := true,
    manifest := some (some { name := some "ProjA",
                             dependencies := [("Acme.Lib", "1.0.0")] }) }

def projB7 : DirEntry :=
  { entryName := "FolderB", isDir := true,
    manifest := some (some { name := some "ProjB",
                             dependencies := [("Acme.Lib", "[1.0.0,2.0.0)")] }) }

def projC7 : DirEntry :=
  { entryName := "FolderC", isDir := true,
    manifest := some (some { name := some "ProjC",
                             dependencies := [("Acme.Lib", "1.0.0")] }) }

def badProj8 : DirEntry :=
  { entryName := "Broken", isDir := true, manifest := some none }

/--
Claim C7: scanning a base directory with two project folders that both
declare `"Acme.Lib"`, one with spec `"1.0.0"` and one with `"[1.0.0,2.0.0)"`,
yields a single consolidated `DependencyInfo` for `"Acme.Lib"` whose
`projects` has size 2 and whose `version_specs` has size 2; second conjunct:
a third project repeating the exact string `"1.0.0"` adds a third project but
no third spec — specs deduplicate only on exact string equality.
-/
theorem claim_c7_scan_consolidation :
    ((scan_project_dependencies (some [projA7, projB7])).lookup "Acme.Lib").map
        (fun info => (info.projects, info.version_specs)) =
      some (["ProjA", "ProjB"], ["1.0.0", "[1.0.0,2.0.0)"]) ∧
    ((scan_project_dependencies (some [projA7, projB7, projC7])).lookup "Acme.Lib").map
        (fun info => (info.projects.length, info.version_specs.length)) =
      some (3, 2) := by
  decide

theorem scanEntry_invalid (acc : List (String × DependencyInfo)) (e : DirEntry)
    (h : e.manifest = some none) : scanEntry acc e = acc := by
  unfold scanEntry
  rw [h]
  split <;> rfl

/--
Claim C8: `scan_project_dependencies` never raises (it is a total function in
this embedding); a non-existent base directory yields the empty map rather
than an error; and an entry whose `project.json` is invalid JSON contributes
nothing — scanning a listing with it gives exactly the scan of the listing
without it — while other valid projects are still represented (concretely, a
broken project followed by a valid one yields only the valid project's
contributions).
-/
theorem claim_c8_scan_graceful :
    scan_project_dependencies none = [] ∧
    (∀ (l1 l2 : List DirEntry) (e : DirEntry), e.manifest = some none →
      scan_project_dependencies (some (l1 ++ e :: l2)) =
        scan_project_dependencies (some (l1 ++ l2))) ∧
    ((scan_project_dependencies (some [badProj8, projA7])).lookup "Acme.Lib").map
        (fun info => info.projects) = some ["ProjA"] ∧
    scan_project_dependencies (some [badProj8, projA7]) =
      scan_project_dependencies (some [projA7]) := by
  refine ⟨rfl, ?_, by decide, by decide⟩
  intro l1 l2 e he
  show (l1 ++ e :: l2).foldl scanEntry [] = (l1 ++ l2).foldl scanEntry []
  rw [List.foldl_append, List.foldl_append, List.foldl_cons, scanEntry_invalid _ _ he]

/-- Witness for C8: dropping a concrete invalid-JSON entry from a concrete
listing leaves the scan unchanged. -/
theorem claim_c8_witness :
    scan_project_dependencies (some [badProj8]) = scan_project_dependencies (some []) :=
  claim_c8_scan_graceful.2.1 [] [] badProj8 rfl

/-! ## Base64 and `install_nupkg_to_cache` (src/services/orchestrator.py, 284-352)

`base64.b64encode` and `hashlib.sha512` are external libraries: the encoder
is embedded (its output is what the source writes to the sidecar files), the
digest is an abstract function parameter, and the decoder below is the
reference reading of the claim's "when base64-decoded". -/

/-- The base64 alphabet character for a 6-bit value. -/
def b64Char (n : Nat) : Char :=
  if n < 26 then Char.ofNat (65 + n)
  else if n < 52 then Char.ofNat (97 + (n - 26))
  else if n < 62 then Char.ofNat (48 + (n - 52))
  else if n = 62 then '+' else '/'

/-- Inverse of the base64 alphabet; `=` and foreign characters map to none. -/
def b64DecodeChar (c : Char) : Option Nat :=
  if 65 ≤ c.toNat ∧ c.toNat ≤ 90 then some (c.toNat - 65)
  else if 97 ≤ c.toNat ∧ c.toNat ≤ 122 then some (c.toNat - 97 + 26)
  else if 48 ≤ c.toNat ∧ c.toNat ≤ 57 then some (c.toNat - 48 + 52)
  else if c = '+' then some 62
  else if c = '/' then some 63
  else none

/-- `base64.b64encode` on a byte list. -/
def b64encode : List Nat → List Char
  | [] => []
  | [a] => [b64Char (a / 4), b64Char (a % 4 * 16), '=', '=']
  | [a, b] => [b64Char (a / 4), b64Char (a % 4 * 16 + b / 16), b64Char (b % 16 * 4), '=']
  | a :: b :: c :: rest =>
    b64Char (a / 4) :: b64Char (a % 4 * 16 + b / 16) ::
      b64Char (b % 16 * 4 + c / 64) :: b64Char (c % 64) :: b64encode rest

/-- `base64.b64decode` on a character list (4-character groups, `=`-padded). -/
def b64decode : List Char → Option (List Nat)
  | [] => some []
  | w :: x :: y :: z :: rest =>
    if y = '=' ∧ z = '=' ∧ rest = [] then
      match b64DecodeChar w, b64DecodeChar x with
      | some a, some b => some [a * 4 + b / 16]
      | _, _ => none
    else if z = '=' ∧ rest = [] then
      match b64DecodeChar w, b64DecodeChar x, b64DecodeChar y with
      | some a, some b, some c => some [a * 4 + b / 16, b % 16 * 16 + c / 4]
      | _, _, _ => none
    else
      match b64DecodeChar w, b64DecodeChar x, b64DecodeChar y, b64DecodeChar z with
      | some a, some b, some c, some d =>
        match b64decode rest with
        | some tail =>
          some ((a * 4 + b / 16) :: (b % 16 * 16 + c / 4) :: (c % 4 * 64 + d) :: tail)
        | none => none
      | _, _, _, _ => none
  | _ => none

theorem b64DecodeChar_b64Char : ∀ n < 64, b64DecodeChar (b64Char n) = some n := by
  decide

theorem b64Char_ne_eq : ∀ n < 64, b64Char n ≠ '=' := by
  decide

theorem b64decode_b64encode :
    ∀ l : List Nat, (∀ b ∈ l, b < 256) → b64decode (b64encode l) = some l
  | [], _ => rfl
  | [a], h => by
    have ha : a < 256 := h a (by simp)
    have h1 := b64DecodeChar_b64Char (a / 4) (by omega)
    have h2 := b64DecodeChar_b64Char (a % 4 * 16) (by omega)
    have key : a / 4 * 4 + a % 4 * 16 / 16 = a := by omega
    show b64decode [b64Char (a / 4), b64Char (a % 4 * 16), '=', '='] = some [a]
    simp [b64decode, h1, h2, key]
    all_goals omega
  | [a, b], h => by
    have ha : a < 256 := h a (by simp)
    have hb : b < 256 := h b (by simp)
    have h1 := b64DecodeChar_b64Char (a / 4) (by omega)
    have h2 := b64DecodeChar_b64Char (a % 4 * 16 + b / 16) (by omega)
    have h3 := b64DecodeChar_b64Char (b % 16 * 4) (by omega)
    have hy := b64Char_ne_eq (b % 16 * 4) (by omega)
    have key1 : a / 4 * 4 + (a % 4 * 16 + b / 16) / 16 = a := by omega
    have key2 : (a % 4 * 16 + b / 16) % 16 * 16 + b % 16 * 4 / 4 = b := by omega
    show b64decode [b64Char (a / 4), b64Char (a % 4 * 16 + b / 16),
        b64Char (b % 16 * 4), '='] = some [a, b]
    simp [b64decode, h1, h2, h3, hy, key1, key2]
    all_goals omega
  | [a, b, c], h => by
    have ha : a < 256 := h a (by simp)
    have hb : b < 256 := h b (by simp)
    have hc : c < 256 := h c (by simp)
    have h1 := b64DecodeChar_b64Char (a / 4) (by omega)
    have h2 := b64DecodeChar_b64Char (a % 4 * 16 + b / 16) (by omega)
    have h3 := b64DecodeChar_b64Char (b % 16 * 4 + c / 64) (by omega)
    have h4 := b64DecodeChar_b64Char (c % 64) (by omega)
    have hy := b64Char_ne_eq (b % 16 * 4 + c / 64) (by omega)
    have hz := b64Char_ne_eq (c % 64) (by omega)
    have key1 : a / 4 * 4 + (a % 4 * 16 + b / 16) / 16 = a := by omega
    have key2 : (a % 4 * 16 + b / 16) % 16 * 16 + (b % 16 * 4 + c / 64) / 4 = b := by
      omega
    have key3 : (b % 16 * 4 + c / 64) % 4 * 64 + c % 64 = c := by omega
    show b64decode (b64Char (a / 4) :: b64Char (a % 4 * 16 + b / 16) ::
        b64Char (b % 16 * 4 + c / 64) :: b64Char (c % 64) :: b64encode []) =
      some [a, b, c]
    simp [b64decode, h1, h2, h3, h4, hy, hz, key1, key2, key3]
  | a :: b :: c :: d :: rest, h => by
    have ha : a < 256 := h a (by simp)
    have hb : b < 256 := h b (by simp)
    have hc : c < 256 := h c (by simp)
    have ih := b64decode_b64encode (d :: rest) fun x hx => h x (by simp [hx])
    have h1 := b64DecodeChar_b64Char (a / 4) (by omega)
    have h2 := b64DecodeChar_b64Char (a % 4 * 16 + b / 16) (by omega)
    have h3 := b64DecodeChar_b64Char (b % 16 * 4 + c / 64) (by omega)
    have h4 := b64DecodeChar_b64Char (c % 64) (by omega)
    have hy := b64Char_ne_eq (b % 16 * 4 + c / 64) (by omega)
    have hz := b64Char_ne_eq (c % 64) (by omega)
    have key1 : a / 4 * 4 + (a % 4 * 16 + b / 16) / 16 = a := by omega
    have key2 : (a % 4 * 16 + b / 16) % 16 * 16 + (b % 16 * 4 + c / 64) / 4 = b := by
      omega
    have key3 : (b % 16 * 4 + c / 64) % 4 * 64 + c % 64 = c := by omega
    show b64decode (b64Char (a / 4) :: b64Char (a % 4 * 16 + b / 16) ::
        b64Char (b % 16 * 4 + c / 64) :: b64Char (c % 64) ::
        b64encode (d :: rest)) = some (a :: b :: c :: d :: rest)
    simp [b64decode, h1, h2, h3, h4, hy, hz, ih, key1, key2, key3]

/-- Case-insensitive literal match of `pat` (given lowercase) against the
head of `cs`; returns the rest on success. -/
def eatCI (pat : List Char) (cs : List Char) : Option (List Char) :=
  match pat, cs with
  | [], rest => some rest
  | _ :: _, [] => none
  | p :: ps, c :: rest => if c.toLower = p then eatCI ps rest else none

/-- One-position match of `re.search(r'<tag>([^<]+)</tag>', ..., IGNORECASE)`:
the literal open tag, a maximal nonempty run of non-`<` characters (the
regex's greedy `[^<]+`, which cannot backtrack past a `<`), then the literal
close tag. -/
def matchTagAt (tag : List Char) (cs : List Char) : Option (List Char) :=
  match eatCI ('<' :: tag ++ ['>']) cs with
  | none => none
  | some r1 =>
    let inner := r1.takeWhile (· != '<')
    if inner = [] then none
    else
      match eatCI ('<' :: '/' :: tag ++ ['>']) (r1.dropWhile (· != '<')) with
      | some _ => some inner
      | none => none

/-- Leftmost search of the tag pattern over the content, as `re.search`. -/
def searchTag (tag : List Char) : List Char → Option (List Char)
  | [] => none
  | c :: rest =>
    match matchTagAt tag (c :: rest) with
    | some inner => some inner
    | none => searchTag tag rest

/-- A `.nupkg` archive as the zip reader presents it to the installer: the
raw bytes, and the content of the first `.nuspec` member if there is one. -/
structure NupkgArchive where
  raw : List Nat
  nuspec : Option String

/-- The sidecar files `install_nupkg_to_cache` writes for a package. -/
structure CacheWrite where
  package_dir : String
  nupkg_dest : String
  sha512_file : String
  sha512_content : String
  metadata_version : Nat
  metadata_contentHash : String
  metadata_source : Option String

/-- `install_nupkg_to_cache(nupkg_path)` (src/services/orchestrator.py,
lines 284-352), modelled on an explicit archive, an explicit cache root (the
ambient `~/.nuget/packages`), and an abstract `sha512` digest function.
Returns the source's `(ok, message)` pair plus a record of the files written
on success; filesystem writes themselves are external effects. -/
def install_nupkg_to_cache (sha512 : List Nat → List Nat) (cacheRoot : String)
    (ar : NupkgArchive) : (Bool × String) × Option CacheWrite :=
  match ar.nuspec with
  | none => ((false, "No .nuspec found in package"), none)
  | some content =>
    match searchTag "id".data content.data, searchTag "version".data content.data with
    | some idCs, some verCs =>
      let package_id := String.mk idCs
      let package_version := String.mk verCs
      let package_dir := cacheRoot ++ "/" ++ sLower package_id ++ "/" ++ package_version
      let nupkg_dest := package_dir ++ "/" ++ sLower package_id ++ "." ++
        package_version ++ ".nupkg"
      let sha512_base64 := String.mk (b64encode (sha512 ar.raw))
      ((true, "✅ Instalado: " ++ package_id ++ " v" ++ package_version),
       some { package_dir := package_dir,
              nupkg_dest := nupkg_dest,
              sha512_file := nupkg_dest ++ ".sha512",
              sha512_content := sha512_base64,
              metadata_version := 2,
              metadata_contentHash := sha512_base64,
              metadata_source := none })
    | some _, none => ((false, "Could not parse package id/version from nuspec"), none)
    | none, _ => ((false, "Could not parse package id/version from nuspec"), none)

/--
Claim C9: for every archive whose manifest parses to an id and a version,
installing it into the cache targets the directory
`cacheRoot/<id lowercase>/<version>`, and the sidecar hash file content,
base64-decoded, equals the SHA-512 digest of the original archive bytes,
alongside metadata recording schema version 2, the same base64 content hash,
and a null source; a missing manifest or an unparsable id/version is reported
as `(false, reason)` — the embedding is a total function, so no exception is
raised.
-/
theorem claim_c9_install_roundtrip :
    (∀ (sha512 : List Nat → List Nat) (cacheRoot : String) (ar : NupkgArchive)
        (content : String) (idCs verCs : List Char),
      ar.nuspec = some content →
      searchTag "id".data content.data = some idCs →
      searchTag "version".data content.data = some verCs →
      (∀ b ∈ sha512 ar.raw, b < 256) →
      ∃ w : CacheWrite,
        install_nupkg_to_cache sha512 cacheRoot ar =
          ((true, "✅ Instalado: " ++ String.mk idCs ++ " v" ++ String.mk verCs), some w) ∧
        w.package_dir = cacheRoot ++ "/" ++ sLower (String.mk idCs) ++ "/" ++
          String.mk verCs ∧
        w.sha512_file = w.package_dir ++ "/" ++ sLower (String.mk idCs) ++ "." ++
          String.mk verCs ++ ".nupkg" ++ ".sha512" ∧
        b64decode w.sha512_content.data = some (sha512 ar.raw) ∧
        w.metadata_version = 2 ∧
        w.metadata_contentHash = w.sha512_content ∧
        w.metadata_source = none) ∧
    (∀ (sha512 : List Nat → List Nat) (cacheRoot : String) (ar : NupkgArchive),
      ar.nuspec = none →
      install_nupkg_to_cache sha512 cacheRoot ar =
        ((false, "No .nuspec found in package"), none)) ∧
    (∀ (sha512 : List Nat → List Nat) (cacheRoot : String) (ar : NupkgArchive)
        (content : String),
      ar.nuspec = some content →
      searchTag "id".data content.data = none ∨
        searchTag "version".data content.data = none →
      install_nupkg_to_cache sha512 cacheRoot ar =
        ((false, "Could not parse package id/version from nuspec"), none)) := by
  refine ⟨?_, ?_, ?_⟩
  · intro sha512 cacheRoot ar content idCs verCs h1 h2 h3 h4
    have hdec : b64decode (String.mk (b64encode (sha512 ar.raw))).data =
        some (sha512 ar.raw) := b64decode_b64encode (sha512 ar.raw) h4
    simp only [install_nupkg_to_cache, h1, h2, h3]
    exact ⟨_, rfl, rfl, rfl, hdec, rfl, rfl, rfl⟩
  · intro sha512 cacheRoot ar h1
    simp only [install_nupkg_to_cache, h1]
  · intro sha512 cacheRoot ar content h1 h2
    rcases h2 with h2 | h2
    · cases hv : searchTag "version".data content.data <;>
        simp only [install_nupkg_to_cache, h1, h2, hv]
    · cases hv : searchTag "id".data content.data <;>
        simp only [install_nupkg_to_cache, h1, h2, hv]

def nuspecSample : String :=
  "<metadata><id>Acme.Lib</id><version>1.0.0</version></metadata>"

def archiveSample : NupkgArchive := { raw := [1, 2, 3], nuspec := some nuspecSample }

/-- Witness for C9: a concrete archive with a known manifest and a concrete
digest function. -/
theorem claim_c9_witness :
    ∃ w : CacheWrite,
      install_nupkg_to_cache (fun _ => [7, 8, 9]) "/root/.nuget/packages" archiveSample =
        ((true, "✅ Instalado: " ++ String.mk "Acme.Lib".data ++ " v" ++
          String.mk "1.0.0".data), some w) ∧
      w.package_dir = "/root/.nuget/packages" ++ "/" ++ sLower (String.mk "Acme.Lib".data) ++
        "/" ++ String.mk "1.0.0".data ∧
      w.sha512_file = w.package_dir ++ "/" ++ sLower (String.mk "Acme.Lib".data) ++ "." ++
        String.mk "1.0.0".data ++ ".nupkg" ++ ".sha512" ∧
      b64decode w.sha512_content.data = some ((fun _ => [7, 8, 9]) archiveSample.raw) ∧
      w.metadata_version = 2 ∧
      w.metadata_contentHash = w.sha512_content ∧
      w.metadata_source = none :=
  claim_c9_install_roundtrip.1 (fun _ => [7, 8, 9]) "/root/.nuget/packages" archiveSample
    nuspecSample "Acme.Lib".data "1.0.0".data rfl (by decide) (by decide) (by decide)

/-! ## Dependency resolver (src/services/dependency_resolver.py)

The resolver calls four collaborators: `check_library_exists` and
`download_library_persistent` (methods of the registry client that the
repository does not define under src/ — the spec declares the Registry Client
an opaque capability), `install_nupkg_to_cache` (modelled above, but observed
here only through its `(ok, message)` result), and
`parse_nuspec_dependencies` (zip + regex over external file contents).  They
are modelled as an arbitrary environment record; the session-fixed auth token
and target directory are absorbed into it.  The embedded control flow of
`resolve_all` / `_resolve_recursive` itself follows the source line by line.
The recursion is made structural by a fuel argument; `resolve_all`
instantiates the fuel with a bound proved sufficient below, so the
fuel-exhaustion result `none` never occurs there. -/

/-- `OFFICIAL_PREFIXES` (lines 22-28). -/
def officialPrefixes : List String :=
  ["UiPath.", "System.", "Microsoft.", "Newtonsoft.", "NuGet."]

/-- Python `s.startswith(p)`. -/
def sStartsWith (s p : String) : Bool := p.data.isPrefixOf s.data

/-- `_is_official_package` (lines 290-297). -/
def is_official_package (package_id : String) : Bool :=
  officialPrefixes.any fun p => sStartsWith package_id p

/-- `ResolvedPackage` (lines 31-41): a dataclass whose `dependencies` list of
children makes it a rose tree; fields in source order. -/
inductive ResolvedPackage where
  | mk (package_id : String) (version : String) (nupkg_path : Option String)
       (dependencies : List ResolvedPackage) (is_downloaded : Bool)
       (is_installed : Bool) (was_skipped : Bool) (error : Option String)

def ResolvedPackage.package_id : ResolvedPackage → String
  | .mk i _ _ _ _ _ _ _ => i

def ResolvedPackage.version : ResolvedPackage → String
  | .mk _ v _ _ _ _ _ _ => v

def ResolvedPackage.nupkg_path : ResolvedPackage → Option String
  | .mk _ _ p _ _ _ _ _ => p

def ResolvedPackage.dependencies : ResolvedPackage → List ResolvedPackage
  | .mk _ _ _ d _ _ _ _ => d

def ResolvedPackage.is_downloaded : ResolvedPackage → Bool
  | .mk _ _ _ _ b _ _ _ => b

def ResolvedPackage.is_installed : ResolvedPackage → Bool
  | .mk _ _ _ _ _ b _ _ => b

def ResolvedPackage.was_skipped : ResolvedPackage → Bool
  | .mk _ _ _ _ _ _ b _ => b

def ResolvedPackage.error : ResolvedPackage → Option String
  | .mk _ _ _ _ _ _ _ e => e

/-- `pkg.dependencies.append(dep_pkg)` (line 285). -/
def ResolvedPackage.addDependency : ResolvedPackage → ResolvedPackage → ResolvedPackage
  | .mk i v p d dl ins sk er, child => .mk i v p (d ++ [child]) dl ins sk er

/-- Session state: the visited set and `_download_stats` (lines 63-69), plus
ghost logs recording, newest first, which `(package_id, version)` each
visited-set insertion, each `download_library_persistent` call, each
`install_nupkg_to_cache` call, and each failed `install_nupkg_to_cache` call
was made for.  The logs are pure observations of the calls the source makes;
the source state is the first five fields. -/
structure RState where
  visited : List (String × String)
  downloaded : Nat
  installed : Nat
  skipped : Nat
  failed : Nat
  visitLog : List (String × String)
  downloadLog : List (String × String)
  installLog : List (String × String)
  installFailLog : List (String × String)

/-- `reset_stats` (lines 71-79): clear the visited set, zero the counters. -/
def initState : RState :=
  { visited := [], downloaded := 0, installed := 0, skipped := 0, failed := 0,
    visitLog := [], downloadLog := [], installLog := [], installFailLog := [] }

/-- The external collaborators of one resolution session as the resolver
observes them: registry existence check, download (success flag and path or
error message), cache install (success flag and message), and the dependency
lists `parse_nuspec_dependencies` extracts from each downloaded file path
(an absent path models both a bad archive and one without dependencies,
which the source treats identically — both give the empty list). -/
structure REnv where
  existsInOrch : String → Bool
  download : String → String → Bool × String
  install : String → Bool × String
  archives : List (String × List (String × String))

/-- `parse_nuspec_dependencies(nupkg_path)` as observed through the archive
table (lines 85-129; parse failures return `[]`). -/
def parseDeps (env : REnv) (path : String) : List (String × String) :=
  (env.archives.lookup path).getD []

/-- The visited-set key of line 214: `(package_id.lower(), version)`. -/
def keyOf (package_id version : String) : String × String :=
  (sLower package_id, version)

/-- `keyOf` on a pair. -/
def keyD (d : String × String) : String × String := keyOf d.1 d.2

/-- The dependency loop of `_resolve_recursive` (lines 270-286) with the
recursive call abstracted as `step`: official packages are skipped before any
visit or download, other dependencies are resolved and appended as children,
and their errors are merged upward. -/
def depsLoop
    (step : String → String → RState → Option (ResolvedPackage × List String × RState)) :
    List (String × String) → ResolvedPackage → List String → RState →
    Option (ResolvedPackage × List String × RState)
  | [], pkg, errs, st => some (pkg, errs, st)
  | d :: ds, pkg, errs, st =>
    if is_official_package d.1 then depsLoop step ds pkg errs st
    else
      match step d.1 d.2 st with
      | none => none
      | some (child, cerrs, st') =>
        depsLoop step ds (pkg.addDependency child) (errs ++ cerrs) st'

/-- `_resolve_recursive` (lines 187-288).  `useVC`/`vc` model the optional
`version_cache` dict: whether one was supplied, and which package ids it
already contains. -/
def resolveRec (env : REnv) (installToCache : Bool) (useVC : Bool) (vc : List String) :
    Nat → String → String → RState → Option (ResolvedPackage × List String × RState)
  | 0, _, _, _ => none
  | fuel + 1, package_id, version, st =>
    let key := keyOf package_id version
    if key ∈ st.visited then
      some (.mk package_id version none [] true false true none, [], st)
    else
      let st1 : RState :=
        { st with visited := key :: st.visited,
                  visitLog := (package_id, version) :: st.visitLog }
      if useVC = true ∧ package_id ∉ vc ∧ env.existsInOrch package_id = false then
        some (.mk package_id version none [] false false false
                (some "Package not found in Orchestrator"),
              [package_id ++ "@" ++ version ++ ": Not found in Orchestrator"],
              { st1 with failed := st1.failed + 1 })
      else
        let dl := env.download package_id version
        let st2 : RState :=
          { st1 with downloadLog := (package_id, version) :: st1.downloadLog }
        if dl.1 then
          let st3 : RState := { st2 with downloaded := st2.downloaded + 1 }
          if installToCache then
            let st4 : RState :=
              { st3 with installLog := (package_id, version) :: st3.installLog }
            let r := env.install dl.2
            if r.1 then
              depsLoop (resolveRec env installToCache useVC vc fuel)
                (parseDeps env dl.2)
                (.mk package_id version (some dl.2) [] true true false none)
                [] { st4 with installed := st4.installed + 1 }
            else
              depsLoop (resolveRec env installToCache useVC vc fuel)
                (parseDeps env dl.2)
                (.mk package_id version (some dl.2) [] true false false none)
                ["Install failed " ++ package_id ++ (": " ++ r.2)]
                { st4 with installFailLog := (package_id, version) :: st4.installFailLog }
          else
            depsLoop (resolveRec env installToCache useVC vc fuel)
              (parseDeps env dl.2)
              (.mk package_id version (some dl.2) [] true false false none)
              [] st3
        else
          some (.mk package_id version none [] false false false (some dl.2),
                [package_id ++ "@" ++ version ++ (": " ++ dl.2)],
                { st2 with failed := st2.failed + 1 })

/-- The root loop of `resolve_all` (lines 169-175). -/
def resolveRoots (env : REnv) (installToCache useVC : Bool) (vc : List String)
    (fuel : Nat) :
    List (String × String) → List ResolvedPackage → List String → RState →
    Option (List ResolvedPackage × List String × RState)
  | [], acc, errs, st => some (acc, errs, st)
  | r :: rest, acc, errs, st =>
    match resolveRec env installToCache useVC vc fuel r.1 r.2 st with
    | none => none
    | some (pkg, es, st') =>
      resolveRoots env installToCache useVC vc fuel rest (acc ++ [pkg]) (errs ++ es) st'

/-- All keys that can ever reach a recursive call through a dependency list:
recursion depth is bounded by their number, which gives the fuel bound. -/
def allDepKeys (env : REnv) : List (String × String) :=
  ((env.archives.map fun a => a.2).flatten).map keyD

/-- `resolve_all` (lines 131-185): reset the session state and statistics
(`reset_stats`), then resolve each root package in order, collecting result
nodes and errors.  The fuel never runs out at this bound
(`resolve_all_isSome` below). -/
def resolve_all (env : REnv) (installToCache useVC : Bool) (vc : List String)
    (root_packages : List (String × String)) :
    Option (List ResolvedPackage × List String × RState) :=
  resolveRoots env installToCache useVC vc ((allDepKeys env).length + 3)
    root_packages [] [] initState

mutual

/-- The inner `count_deps` of `count_total_packages` (lines 342-346). -/
def count_deps : ResolvedPackage → Nat
  | .mk _ _ _ d _ _ _ _ => d.length + count_deps_list d

/-- `sum(count_deps(pkg) for pkg in ...)`. -/
def count_deps_list : List ResolvedPackage → Nat
  | [] => 0
  | p :: ps => count_deps p + count_deps_list ps

end

/-- `count_total_packages(resolved_list)` (lines 330-350):
`(main_count, transitive_count)`. -/
def count_total_packages (resolved_list : List ResolvedPackage) : Nat × Nat :=
  (resolved_list.length, count_deps_list resolved_list)

mutual

/-- All nodes of a result tree: the node itself and its descendants. -/
def nodesOf : ResolvedPackage → List ResolvedPackage
  | .mk i v p d dl ins sk er => .mk i v p d dl ins sk er :: nodesOfList d

/-- All nodes of a forest. -/
def nodesOfList : List ResolvedPackage → List ResolvedPackage
  | [] => []
  | p :: ps => nodesOf p ++ nodesOfList ps

end

/-- Keys of the non-skipped (fully processed, non-stub) nodes of a tree. -/
def nsKeys (p : ResolvedPackage) : List (String × String) :=
  (nodesOf p).filterMap fun n =>
    if n.was_skipped then none else some (keyOf n.package_id n.version)

/-- Keys of the non-skipped nodes of a forest. -/
def nsKeysList (l : List ResolvedPackage) : List (String × String) :=
  (nodesOfList l).filterMap fun n =>
    if n.was_skipped then none else some (keyOf n.package_id n.version)

/-! ### Tree bookkeeping lemmas -/

theorem nodesOfList_append (l1 l2 : List ResolvedPackage) :
    nodesOfList (l1 ++ l2) = nodesOfList l1 ++ nodesOfList l2 := by
  induction l1 with
  | nil => simp [nodesOfList]
  | cons p ps ih => simp [nodesOfList, ih]

theorem nsKeys_addDependency (p c : ResolvedPackage) :
    nsKeys (p.addDependency c) = nsKeys p ++ nsKeys c := by
  cases p with
  | mk i v pth d dl ins sk er =>
    cases sk <;>
      simp [ResolvedPackage.addDependency, nsKeys, nodesOf, nodesOfList_append,
        List.filterMap_append, nodesOfList, List.filterMap_cons,
        ResolvedPackage.was_skipped, ResolvedPackage.package_id, ResolvedPackage.version]

theorem nsKeysList_append (l1 l2 : List ResolvedPackage) :
    nsKeysList (l1 ++ l2) = nsKeysList l1 ++ nsKeysList l2 := by
  simp [nsKeysList, nodesOfList_append, List.filterMap_append]

theorem nsKeysList_single (p : ResolvedPackage) : nsKeysList [p] = nsKeys p := by
  simp [nsKeysList, nsKeys, nodesOfList]

theorem nodesOfList_single (p : ResolvedPackage) : nodesOfList [p] = nodesOf p := by
  simp [nodesOfList]

theorem nodesOf_addDependency_cases (p c n : ResolvedPackage)
    (hn : n ∈ nodesOf (p.addDependency c)) :
    (∃ n' ∈ nodesOf p, n.error = n'.error ∧ n.package_id = n'.package_id ∧
      n.version = n'.version) ∨ n ∈ nodesOf c := by
  cases p with
  | mk i v pth d dl ins sk er =>
    simp only [ResolvedPackage.addDependency, nodesOf, nodesOfList_append,
      List.mem_cons, List.mem_append, nodesOfList, List.append_nil] at hn
    rcases hn with h | h | h
    · left
      refine ⟨.mk i v pth d dl ins sk er, ?_, ?_⟩
      · simp [nodesOf]
      · subst h
        simp [ResolvedPackage.error, ResolvedPackage.package_id, ResolvedPackage.version]
    · left
      refine ⟨n, ?_, rfl, rfl, rfl⟩
      simp [nodesOf, h]
    · right
      exact h

/-! ### Session invariants -/

/-- Consistency of the collaborator-call logs with the visited set: every
logged download/install key is in the visited set, and no key was logged
twice (the resolver never repeats a download or a cache install for the same
`(packageId.lower(), version)`). -/
def logsWF (st : RState) : Prop :=
  (st.downloadLog.map keyD).Nodup ∧ (∀ d ∈ st.downloadLog, keyD d ∈ st.visited) ∧
  (st.installLog.map keyD).Nodup ∧ (∀ d ∈ st.installLog, keyD d ∈ st.visited)

/-- No official package id was ever inserted into the visited set or passed
to the download/install collaborators. -/
def noOfficial (st : RState) : Prop :=
  (∀ d ∈ st.visitLog, is_official_package d.1 = false) ∧
  (∀ d ∈ st.downloadLog, is_official_package d.1 = false) ∧
  (∀ d ∈ st.installLog, is_official_package d.1 = false)

/-- Every errored node among `ns` is reported in `errs` under its
`id@version` prefix. -/
def errEcho (ns : List ResolvedPackage) (errs : List String) : Prop :=
  ∀ n ∈ ns, ∀ m, n.error = some m →
    ∃ e ∈ errs, ∃ t, e = n.package_id ++ "@" ++ n.version ++ t

/-- The bundle of guarantees one recursive call provides: the visited set
grows, the `skipped` counter is untouched, log consistency and
official-freeness are preserved, the non-skipped nodes of the produced tree
have distinct keys that were unvisited on entry and are visited on exit, and
every errored node is echoed in the returned error list. -/
def StepOK
    (step : String → String → RState → Option (ResolvedPackage × List String × RState)) :
    Prop :=
  ∀ pid ver st pkg errs st', step pid ver st = some (pkg, errs, st') →
    (st.visited ⊆ st'.visited) ∧
    st'.skipped = st.skipped ∧
    (logsWF st → logsWF st') ∧
    (is_official_package pid = false → noOfficial st → noOfficial st') ∧
    ((nsKeys pkg).Nodup ∧ ∀ k ∈ nsKeys pkg, k ∉ st.visited ∧ k ∈ st'.visited) ∧
    errEcho (nodesOf pkg) errs

theorem depsLoop_ok
    (step : String → String → RState → Option (ResolvedPackage × List String × RState))
    (hstep : StepOK step) :
    ∀ ds pkg errs st pkg' errs' st',
      depsLoop step ds pkg errs st = some (pkg', errs', st') →
      (st.visited ⊆ st'.visited) ∧
      st'.skipped = st.skipped ∧
      (logsWF st → logsWF st') ∧
      (noOfficial st → noOfficial st') ∧
      ((nsKeys pkg).Nodup → (∀ k ∈ nsKeys pkg, k ∈ st.visited) →
        ((nsKeys pkg').Nodup ∧ (∀ k ∈ nsKeys pkg', k ∈ st'.visited) ∧
         (∀ k ∈ nsKeys pkg', k ∉ nsKeys pkg → k ∉ st.visited))) ∧
      (errEcho (nodesOf pkg) errs → errEcho (nodesOf pkg') errs') := by
  intro ds
  induction ds with
  | nil =>
    intro pkg errs st pkg' errs' st' heq
    simp only [depsLoop, Option.some.injEq, Prod.mk.injEq] at heq
    obtain ⟨h1, h2, h3⟩ := heq
    subst h1; subst h2; subst h3
    refine ⟨List.Subset.refl _, rfl, fun h => h, fun h => h, ?_, fun h => h⟩
    intro hnd hin
    exact ⟨hnd, hin, fun k hk hnk => absurd hk hnk⟩
  | cons d ds ih =>
    intro pkg errs st pkg' errs' st' heq
    simp only [depsLoop] at heq
    by_cases hoff : is_official_package d.1 = true
    · rw [if_pos hoff] at heq
      exact ih pkg errs st pkg' errs' st' heq
    · rw [if_neg hoff] at heq
      have hoff' : is_official_package d.1 = false := by
        revert hoff; cases is_official_package d.1 <;> simp
      cases hres : step d.1 d.2 st with
      | none =>
        rw [hres] at heq
        exact absurd heq (by simp)
      | some trip =>
        obtain ⟨child, cerrs, stc⟩ := trip
        rw [hres] at heq
        obtain ⟨m1, m2, m3, m4, m5, m6⟩ := hstep d.1 d.2 st child cerrs stc hres
        obtain ⟨l1, l2, l3, l4, l5, l6⟩ := ih _ _ _ _ _ _ heq
        refine ⟨m1.trans l1, by rw [l2, m2], fun h => l3 (m3 h),
          fun h => l4 (m4 hoff' h), ?_, ?_⟩
        · intro hnd hin
          obtain ⟨hnd_child, hfresh⟩ := m5
          have hpre_nd : (nsKeys (pkg.addDependency child)).Nodup := by
            rw [nsKeys_addDependency]
            refine hnd.append hnd_child ?_
            intro k hk1 hk2
            exact (hfresh k hk2).1 (hin k hk1)
          have hpre_in : ∀ k ∈ nsKeys (pkg.addDependency child), k ∈ stc.visited := by
            rw [nsKeys_addDependency]
            intro k hk
            rcases List.mem_append.mp hk with hk | hk
            · exact m1 (hin k hk)
            · exact (hfresh k hk).2
          obtain ⟨c1, c2, c3⟩ := l5 hpre_nd hpre_in
          refine ⟨c1, c2, ?_⟩
          intro k hk hnk
          by_cases hmem : k ∈ nsKeys (pkg.addDependency child)
          · rw [nsKeys_addDependency] at hmem
            rcases List.mem_append.mp hmem with h | h
            · exact absurd h hnk
            · exact (hfresh k h).1
          · intro hst
            exact c3 k hk hmem (m1 hst)
        · intro hech
          apply l6
          intro n hn m hm
          rcases nodesOf_addDependency_cases pkg child n hn with ⟨n', hn', he, hi, hv⟩ | hc
          · rw [he] at hm
            obtain ⟨e, he1, t, he2⟩ := hech n' hn' m hm
            refine ⟨e, List.mem_append_left _ he1, t, ?_⟩
            rw [hi, hv]
            exact he2
          · obtain ⟨e, he1, t, he2⟩ := m6 n hc m hm
            exact ⟨e, List.mem_append_right _ he1, t, he2⟩

theorem nsKeys_leaf (i v : String) (pth : Option String) (dl ins : Bool)
    (er : Option String) : nsKeys (.mk i v pth [] dl ins false er) = [keyOf i v] := rfl

theorem nsKeys_skip (i v : String) (pth : Option String) (dl ins : Bool)
    (er : Option String) : nsKeys (.mk i v pth [] dl ins true er) = [] := rfl

theorem nodesOf_leaf (i v : String) (pth : Option String) (dl ins sk : Bool)
    (er : Option String) :
    nodesOf (.mk i v pth [] dl ins sk er) = [.mk i v pth [] dl ins sk er] := rfl

theorem nodup_cons_map_keyD (pid ver : String) (log visited : List (String × String))
    (hnd : (log.map keyD).Nodup) (hin : ∀ d ∈ log, keyD d ∈ visited)
    (hv : keyOf pid ver ∉ visited) : (((pid, ver) :: log).map keyD).Nodup := by
  simp only [List.map_cons, List.nodup_cons]
  refine ⟨?_, hnd⟩
  intro hmem
  obtain ⟨d, hd, hkd⟩ := List.mem_map.mp hmem
  apply hv
  rw [show keyD (pid, ver) = keyOf pid ver from rfl] at hkd
  rw [← hkd]
  exact hin d hd

/-- Assembly of the `StepOK` conclusions for the success path of
`_resolve_recursive`: the download succeeded, the state `stE` entering the
dependency loop extends `st` with the fresh key, and the loop returned. -/
theorem assemble_success (env : REnv) (ic uv : Bool) (vc : List String) (f : Nat)
    (hstep : StepOK (resolveRec env ic uv vc f)) (pid ver : String) (st : RState)
    (hv : keyOf pid ver ∉ st.visited) (pth : String) (ins : Bool)
    (ierrs : List String) (stE : RState)
    (hEvis : stE.visited = keyOf pid ver :: st.visited)
    (hEskip : stE.skipped = st.skipped)
    (hElogs : logsWF st → logsWF stE)
    (hEoff : is_official_package pid = false → noOfficial st → noOfficial stE)
    (pkg : ResolvedPackage) (errs : List String) (st' : RState)
    (heq : depsLoop (resolveRec env ic uv vc f) (parseDeps env pth)
      (.mk pid ver (some pth) [] true ins false none) ierrs stE =
        some (pkg, errs, st')) :
    (st.visited ⊆ st'.visited) ∧
    st'.skipped = st.skipped ∧
    (logsWF st → logsWF st') ∧
    (is_official_package pid = false → noOfficial st → noOfficial st') ∧
    ((nsKeys pkg).Nodup ∧ ∀ k ∈ nsKeys pkg, k ∉ st.visited ∧ k ∈ st'.visited) ∧
    errEcho (nodesOf pkg) errs := by
  obtain ⟨l1, l2, l3, l4, l5, l6⟩ := depsLoop_ok _ hstep _ _ _ _ _ _ _ heq
  refine ⟨?_, ?_, fun h => l3 (hElogs h), fun hp h => l4 (hEoff hp h), ?_, ?_⟩
  · intro x hx
    apply l1
    rw [hEvis]
    exact List.mem_cons_of_mem _ hx
  · rw [l2, hEskip]
  · have hinit_nd :
        (nsKeys (ResolvedPackage.mk pid ver (some pth) [] true ins false none)).Nodup := by
      rw [nsKeys_leaf]
      exact List.nodup_singleton _
    have hinit_in :
        ∀ k ∈ nsKeys (ResolvedPackage.mk pid ver (some pth) [] true ins false none),
          k ∈ stE.visited := by
      rw [nsKeys_leaf]
      intro k hk
      simp only [List.mem_singleton] at hk
      subst hk
      rw [hEvis]
      exact List.mem_cons_self _ _
    obtain ⟨c1, c2, c3⟩ := l5 hinit_nd hinit_in
    refine ⟨c1, ?_⟩
    intro k hk
    refine ⟨?_, c2 k hk⟩
    by_cases hmem :
        k ∈ nsKeys (ResolvedPackage.mk pid ver (some pth) [] true ins false none)
    · rw [nsKeys_leaf] at hmem
      simp only [List.mem_singleton] at hmem
      subst hmem
      exact hv
    · intro hst
      apply c3 k hk hmem
      rw [hEvis]
      exact List.mem_cons_of_mem _ hst
  · apply l6
    intro n hn m hm
    rw [nodesOf_leaf] at hn
    simp only [List.mem_singleton] at hn
    subst hn
    simp [ResolvedPackage.error] at hm

/-- Master preservation lemma: every call of the embedded
`_resolve_recursive` satisfies `StepOK`, at every fuel. -/
theorem resolveRec_ok (env : REnv) (ic uv : Bool) (vc : List String) :
    ∀ fuel, StepOK (resolveRec env ic uv vc fuel) := by
  intro fuel
  induction fuel with
  | zero =>
    intro pid ver st pkg errs st' heq
    exact absurd heq (by simp [resolveRec])
  | succ f ih =>
    intro pid ver st pkg errs st' heq
    simp only [resolveRec] at heq
    by_cases hv : keyOf pid ver ∈ st.visited
    · rw [if_pos hv] at heq
      simp only [Option.some.injEq, Prod.mk.injEq] at heq
      obtain ⟨h1, h2, h3⟩ := heq
      subst h1; subst h2; subst h3
      refine ⟨List.Subset.refl _, rfl, fun h => h, fun _ h => h, ?_, ?_⟩
      · rw [nsKeys_skip]
        exact ⟨List.nodup_nil, by simp⟩
      · intro n hn m hm
        rw [nodesOf_leaf] at hn
        simp only [List.mem_singleton] at hn
        subst hn
        simp [ResolvedPackage.error] at hm
    · rw [if_neg hv] at heq
      by_cases hnf : uv = true ∧ pid ∉ vc ∧ env.existsInOrch pid = false
      · rw [if_pos hnf] at heq
        simp only [Option.some.injEq, Prod.mk.injEq] at heq
        obtain ⟨h1, h2, h3⟩ := heq
        subst h1; subst h2; subst h3
        refine ⟨?_, rfl, ?_, ?_, ?_, ?_⟩
        · intro x hx
          exact List.mem_cons_of_mem _ hx
        · intro hwf
          obtain ⟨w1, w2, w3, w4⟩ := hwf
          exact ⟨w1, fun d hd => List.mem_cons_of_mem _ (w2 d hd), w3,
                 fun d hd => List.mem_cons_of_mem _ (w4 d hd)⟩
        · intro hpid hno
          obtain ⟨o1, o2, o3⟩ := hno
          refine ⟨?_, o2, o3⟩
          intro d hd
          rcases List.mem_cons.mp hd with h | h
          · subst h; exact hpid
          · exact o1 d h
        · rw [nsKeys_leaf]
          refine ⟨List.nodup_singleton _, ?_⟩
          intro k hk
          simp only [List.mem_singleton] at hk
          subst hk
          exact ⟨hv, List.mem_cons_self _ _⟩
        · intro n hn m hm
          rw [nodesOf_leaf] at hn
          simp only [List.mem_singleton] at hn
          subst hn
          simp only [ResolvedPackage.error, Option.some.injEq] at hm
          subst hm
          refine ⟨pid ++ "@" ++ ver ++ ": Not found in Orchestrator",
            List.mem_singleton_self _, ": Not found in Orchestrator", rfl⟩
      · rw [if_neg hnf] at heq
        by_cases hdl : (env.download pid ver).1 = true
        · rw [if_pos hdl] at heq
          by_cases hic : ic = true
          · rw [if_pos hic] at heq
            by_cases hr : (env.install (env.download pid ver).2).1 = true
            · rw [if_pos hr] at heq
              refine assemble_success env ic uv vc f ih pid ver st hv
                (env.download pid ver).2 true [] _ ?_ ?_ ?_ ?_ pkg errs st' heq
              · rfl
              · rfl
              · intro hwf
                obtain ⟨w1, w2, w3, w4⟩ := hwf
                refine ⟨nodup_cons_map_keyD pid ver _ _ w1 w2 hv, ?_,
                        nodup_cons_map_keyD pid ver _ _ w3 w4 hv, ?_⟩
                · intro d hd
                  rcases List.mem_cons.mp hd with h | h
                  · subst h; exact List.mem_cons_self _ _
                  · exact List.mem_cons_of_mem _ (w2 d h)
                · intro d hd
                  rcases List.mem_cons.mp hd with h | h
                  · subst h; exact List.mem_cons_self _ _
                  · exact List.mem_cons_of_mem _ (w4 d h)
              · intro hpid hno
                obtain ⟨o1, o2, o3⟩ := hno
                refine ⟨?_, ?_, ?_⟩ <;>
                  · intro d hd
                    rcases List.mem_cons.mp hd with h | h
                    · subst h; exact hpid
                    · first
                      | exact o1 d h
                      | exact o2 d h
                      | exact o3 d h
            · rw [if_neg hr] at heq
              refine assemble_success env ic uv vc f ih pid ver st hv
                (env.download pid ver).2 false
                ["Install failed " ++ pid ++ (": " ++ (env.install (env.download pid ver).2).2)]
                _ ?_ ?_ ?_ ?_ pkg errs st' heq
              · rfl
              · rfl
              · intro hwf
                obtain ⟨w1, w2, w3, w4⟩ := hwf
                refine ⟨nodup_cons_map_keyD pid ver _ _ w1 w2 hv, ?_,
                        nodup_cons_map_keyD pid ver _ _ w3 w4 hv, ?_⟩
                · intro d hd
                  rcases List.mem_cons.mp hd with h | h
                  · subst h; exact List.mem_cons_self _ _
                  · exact List.mem_cons_of_mem _ (w2 d h)
                · intro d hd
                  rcases List.mem_cons.mp hd with h | h
                  · subst h; exact List.mem_cons_self _ _
                  · exact List.mem_cons_of_mem _ (w4 d h)
              · intro hpid hno
                obtain ⟨o1, o2, o3⟩ := hno
                refine ⟨?_, ?_, ?_⟩ <;>
                  · intro d hd
                    rcases List.mem_cons.mp hd with h | h
                    · subst h; exact hpid
                    · first
                      | exact o1 d h
                      | exact o2 d h
                      | exact o3 d h
          · rw [if_neg hic] at heq
            refine assemble_success env ic uv vc f ih pid ver st hv
              (env.download pid ver).2 false [] _ ?_ ?_ ?_ ?_ pkg errs st' heq
            · rfl
            · rfl
            · intro hwf
              obtain ⟨w1, w2, w3, w4⟩ := hwf
              refine ⟨nodup_cons_map_keyD pid ver _ _ w1 w2 hv, ?_, w3, ?_⟩
              · intro d hd
                rcases List.mem_cons.mp hd with h | h
                · subst h; exact List.mem_cons_self _ _
                · exact List.mem_cons_of_mem _ (w2 d h)
              · intro d hd
                exact List.mem_cons_of_mem _ (w4 d hd)
            · intro hpid hno
              obtain ⟨o1, o2, o3⟩ := hno
              refine ⟨?_, ?_, o3⟩ <;>
                · intro d hd
                  rcases List.mem_cons.mp hd with h | h
                  · subst h; exact hpid
                  · first
                    | exact o1 d h
                    | exact o2 d h
        · rw [if_neg hdl] at heq
          simp only [Option.some.injEq, Prod.mk.injEq] at heq
          obtain ⟨h1, h2, h3⟩ := heq
          subst h1; subst h2; subst h3
          refine ⟨?_, rfl, ?_, ?_, ?_, ?_⟩
          · intro x hx
            exact List.mem_cons_of_mem _ hx
          · intro hwf
            obtain ⟨w1, w2, w3, w4⟩ := hwf
            refine ⟨nodup_cons_map_keyD pid ver _ _ w1 w2 hv, ?_, w3, ?_⟩
            · intro d hd
              rcases List.mem_cons.mp hd with h | h
              · subst h; exact List.mem_cons_self _ _
              · exact List.mem_cons_of_mem _ (w2 d h)
            · intro d hd
              exact List.mem_cons_of_mem _ (w4 d hd)
          · intro hpid hno
            obtain ⟨o1, o2, o3⟩ := hno
            refine ⟨?_, ?_, o3⟩ <;>
              · intro d hd
                rcases List.mem_cons.mp hd with h | h
                · subst h; exact hpid
                · first
                  | exact o1 d h
                  | exact o2 d h
          · rw [nsKeys_leaf]
            refine ⟨List.nodup_singleton _, ?_⟩
            intro k hk
            simp only [List.mem_singleton] at hk
            subst hk
            exact ⟨hv, List.mem_cons_self _ _⟩
          · intro n hn m hm
            rw [nodesOf_leaf] at hn
            simp only [List.mem_singleton] at hn
            subst hn
            simp only [ResolvedPackage.error, Option.some.injEq] at hm
            subst hm
            refine ⟨pid ++ "@" ++ ver ++ (": " ++ (env.download pid ver).2),
              List.mem_singleton_self _, ": " ++ (env.download pid ver).2, rfl⟩

/-! ### Termination: a sufficient fuel bound -/

theorem mem_of_lookup_eq_some {β : Type} (k : String) (v : β) :
    ∀ l : List (String × β), l.lookup k = some v → (k, v) ∈ l := by
  intro l
  induction l with
  | nil => intro h; simp [List.lookup] at h
  | cons p ps ih =>
    obtain ⟨pk, pv⟩ := p
    intro h
    simp only [List.lookup] at h
    cases hbeq : (k == pk) with
    | true =>
      rw [hbeq] at h
      simp only [Option.some.injEq] at h
      subst h
      have : k = pk := by simpa using hbeq
      subst this
      exact List.mem_cons_self _ _
    | false =>
      rw [hbeq] at h
      exact List.mem_cons_of_mem _ (ih h)

theorem parseDeps_keys_mem (env : REnv) (path : String) :
    ∀ d ∈ parseDeps env path, keyD d ∈ allDepKeys env := by
  intro d hd
  unfold parseDeps at hd
  cases hl : env.archives.lookup path with
  | none => rw [hl] at hd; simp at hd
  | some ds =>
    rw [hl] at hd
    simp only [Option.getD_some] at hd
    have hmem : (path, ds) ∈ env.archives := mem_of_lookup_eq_some path ds _ hl
    unfold allDepKeys
    apply List.mem_map_of_mem
    apply List.mem_flatten.mpr
    refine ⟨ds, ?_, hd⟩
    exact List.mem_map_of_mem _ hmem

/-- Keys of `allDepKeys` not yet visited; the strictly decreasing measure of
the recursion. -/
def ucount (env : REnv) (visited : List (String × String)) : Nat :=
  ((allDepKeys env).toFinset \ visited.toFinset).card

theorem ucount_mono (env : REnv) {v1 v2 : List (String × String)} (h : v1 ⊆ v2) :
    ucount env v2 ≤ ucount env v1 := by
  apply Finset.card_le_card
  intro x hx
  simp only [Finset.mem_sdiff, List.mem_toFinset] at hx ⊢
  exact ⟨hx.1, fun hm => hx.2 (h hm)⟩

theorem ucount_insert_lt (env : REnv) (v : List (String × String)) (k : String × String)
    (hk : k ∈ allDepKeys env) (hnv : k ∉ v) :
    ucount env (k :: v) < ucount env v := by
  have hsub : (allDepKeys env).toFinset \ (k :: v).toFinset ⊆
      (allDepKeys env).toFinset \ v.toFinset := by
    intro x hx
    simp only [Finset.mem_sdiff, List.mem_toFinset, List.mem_cons] at hx ⊢
    exact ⟨hx.1, fun hm => hx.2 (Or.inr hm)⟩
  apply Finset.card_lt_card
  rw [Finset.ssubset_iff_of_subset hsub]
  refine ⟨k, ?_, ?_⟩
  · simp only [Finset.mem_sdiff, List.mem_toFinset]
    exact ⟨hk, hnv⟩
  · simp

theorem ucount_insert_not_mem (env : REnv) (v : List (String × String))
    (k : String × String) (hk : k ∉ allDepKeys env) :
    ucount env (k :: v) = ucount env v := by
  unfold ucount
  congr 1
  apply Finset.ext
  intro x
  simp only [Finset.mem_sdiff, List.mem_toFinset, List.mem_cons]
  constructor
  · rintro ⟨h1, h2⟩
    exact ⟨h1, fun hm => h2 (Or.inr hm)⟩
  · rintro ⟨h1, h2⟩
    refine ⟨h1, ?_⟩
    rintro (rfl | hm)
    · exact hk h1
    · exact h2 hm

theorem ucount_le_length (env : REnv) (v : List (String × String)) :
    ucount env v ≤ (allDepKeys env).length :=
  le_trans (Finset.card_le_card Finset.sdiff_subset) (List.toFinset_card_le _)

theorem depsLoop_some (env : REnv) (ic uv : Bool) (vc : List String) (f : Nat)
    (hstep : ∀ pid ver st,
      (keyOf pid ver ∈ st.visited ∨ keyOf pid ver ∈ allDepKeys env) →
      ucount env st.visited + 2 ≤ f → (resolveRec env ic uv vc f pid ver st).isSome) :
    ∀ ds pkg errs st, (∀ d ∈ ds, keyD d ∈ allDepKeys env) →
      ucount env st.visited + 2 ≤ f →
      (depsLoop (resolveRec env ic uv vc f) ds pkg errs st).isSome := by
  intro ds
  induction ds with
  | nil => intro pkg errs st _ _; simp [depsLoop]
  | cons d ds ih =>
    intro pkg errs st hds hf
    simp only [depsLoop]
    by_cases hoff : is_official_package d.1 = true
    · rw [if_pos hoff]
      exact ih pkg errs st (fun x hx => hds x (List.mem_cons_of_mem _ hx)) hf
    · rw [if_neg hoff]
      have hsome := hstep d.1 d.2 st (Or.inr (hds d (List.mem_cons_self _ _))) hf
      cases hres : resolveRec env ic uv vc f d.1 d.2 st with
      | none => rw [hres] at hsome; simp at hsome
      | some trip =>
        obtain ⟨child, cerrs, stc⟩ := trip
        have hmono := (resolveRec_ok env ic uv vc f d.1 d.2 st child cerrs stc hres).1
        have huc := ucount_mono env hmono
        exact ih (pkg.addDependency child) (errs ++ cerrs) stc
          (fun x hx => hds x (List.mem_cons_of_mem _ hx)) (by omega)

theorem resolveRec_some (env : REnv) (ic uv : Bool) (vc : List String) :
    ∀ f pid ver st,
      (keyOf pid ver ∈ st.visited ∨ keyOf pid ver ∈ allDepKeys env) →
      ucount env st.visited + 2 ≤ f →
      (resolveRec env ic uv vc f pid ver st).isSome := by
  intro f
  induction f with
  | zero => intro pid ver st _ hf; omega
  | succ f ih =>
    intro pid ver st hkey hf
    simp only [resolveRec]
    by_cases hv : keyOf pid ver ∈ st.visited
    · rw [if_pos hv]; simp
    · rw [if_neg hv]
      have hka : keyOf pid ver ∈ allDepKeys env := hkey.resolve_left hv
      have hdec := ucount_insert_lt env st.visited (keyOf pid ver) hka hv
      by_cases hnf : uv = true ∧ pid ∉ vc ∧ env.existsInOrch pid = false
      · rw [if_pos hnf]; simp
      · rw [if_neg hnf]
        by_cases hdl : (env.download pid ver).1 = true
        · rw [if_pos hdl]
          by_cases hic : ic = true
          · rw [if_pos hic]
            by_cases hr : (env.install (env.download pid ver).2).1 = true
            · rw [if_pos hr]
              exact depsLoop_some env ic uv vc f ih _ _ _ _
                (parseDeps_keys_mem env _)
                (by show ucount env (keyOf pid ver :: st.visited) + 2 ≤ f; omega)
            · rw [if_neg hr]
              exact depsLoop_some env ic uv vc f ih _ _ _ _
                (parseDeps_keys_mem env _)
                (by show ucount env (keyOf pid ver :: st.visited) + 2 ≤ f; omega)
          · rw [if_neg hic]
            exact depsLoop_some env ic uv vc f ih _ _ _ _
              (parseDeps_keys_mem env _)
              (by show ucount env (keyOf pid ver :: st.visited) + 2 ≤ f; omega)
        · rw [if_neg hdl]; simp

theorem resolveRec_some_root (env : REnv) (ic uv : Bool) (vc : List String) :
    ∀ f pid ver st, ucount env st.visited + 3 ≤ f →
      (resolveRec env ic uv vc f pid ver st).isSome := by
  intro f pid ver st hf
  by_cases hkey : keyOf pid ver ∈ st.visited ∨ keyOf pid ver ∈ allDepKeys env
  · exact resolveRec_some env ic uv vc f pid ver st hkey (by omega)
  · push_neg at hkey
    obtain ⟨hv, hka⟩ := hkey
    cases f with
    | zero => omega
    | succ f =>
      simp only [resolveRec]
      rw [if_neg hv]
      have heqc : ucount env (keyOf pid ver :: st.visited) = ucount env st.visited :=
        ucount_insert_not_mem env st.visited _ hka
      by_cases hnf : uv = true ∧ pid ∉ vc ∧ env.existsInOrch pid = false
      · rw [if_pos hnf]; simp
      · rw [if_neg hnf]
        by_cases hdl : (env.download pid ver).1 = true
        · rw [if_pos hdl]
          by_cases hic : ic = true
          · rw [if_pos hic]
            by_cases hr : (env.install (env.download pid ver).2).1 = true
            · rw [if_pos hr]
              exact depsLoop_some env ic uv vc f (resolveRec_some env ic uv vc f)
                _ _ _ _ (parseDeps_keys_mem env _)
                (by show ucount env (keyOf pid ver :: st.visited) + 2 ≤ f
                    rw [heqc]; omega)
            · rw [if_neg hr]
              exact depsLoop_some env ic uv vc f (resolveRec_some env ic uv vc f)
                _ _ _ _ (parseDeps_keys_mem env _)
                (by show ucount env (keyOf pid ver :: st.visited) + 2 ≤ f
                    rw [heqc]; omega)
          · rw [if_neg hic]
            exact depsLoop_some env ic uv vc f (resolveRec_some env ic uv vc f)
              _ _ _ _ (parseDeps_keys_mem env _)
              (by show ucount env (keyOf pid ver :: st.visited) + 2 ≤ f
                  rw [heqc]; omega)
        · rw [if_neg hdl]; simp

theorem resolveRoots_some (env : REnv) (ic uv : Bool) (vc : List String) (f : Nat) :
    ∀ rs acc errs st, ucount env st.visited + 3 ≤ f →
      (resolveRoots env ic uv vc f rs acc errs st).isSome := by
  intro rs
  induction rs with
  | nil => intro acc errs st _; simp [resolveRoots]
  | cons r rs ih =>
    intro acc errs st hf
    simp only [resolveRoots]
    have h1 := resolveRec_some_root env ic uv vc f r.1 r.2 st hf
    cases hres : resolveRec env ic uv vc f r.1 r.2 st with
    | none => rw [hres] at h1; simp at h1
    | some trip =>
      obtain ⟨pkg, es, st'⟩ := trip
      have hmono := (resolveRec_ok env ic uv vc f r.1 r.2 st pkg es st' hres).1
      have huc := ucount_mono env hmono
      exact ih (acc ++ [pkg]) (errs ++ es) st' (by omega)

/-- `resolve_all` never runs out of fuel: the result of every session is a
genuine `(resolved, errors)` pair — the model of "`resolveAll` terminates". -/
theorem resolve_all_isSome (env : REnv) (ic uv : Bool) (vc : List String)
    (roots : List (String × String)) : (resolve_all env ic uv vc roots).isSome := by
  apply resolveRoots_some
  have := ucount_le_length env initState.visited
  omega

/-! ### The root loop preserves the session invariants -/

theorem resolveRoots_ok (env : REnv) (ic uv : Bool) (vc : List String) (f : Nat) :
    ∀ rs acc errs st res errs' st',
      resolveRoots env ic uv vc f rs acc errs st = some (res, errs', st') →
      (st.visited ⊆ st'.visited) ∧
      st'.skipped = st.skipped ∧
      (logsWF st → logsWF st') ∧
      ((∀ r ∈ rs, is_official_package r.1 = false) → noOfficial st → noOfficial st') ∧
      res.length = acc.length + rs.length ∧
      ((nsKeysList acc).Nodup → (∀ k ∈ nsKeysList acc, k ∈ st.visited) →
        (nsKeysList res).Nodup) ∧
      (errEcho (nodesOfList acc) errs → errEcho (nodesOfList res) errs') := by
  intro rs
  induction rs with
  | nil =>
    intro acc errs st res errs' st' heq
    simp only [resolveRoots, Option.some.injEq, Prod.mk.injEq] at heq
    obtain ⟨h1, h2, h3⟩ := heq
    subst h1; subst h2; subst h3
    exact ⟨List.Subset.refl _, rfl, fun h => h, fun _ h => h, by simp,
           fun hnd _ => hnd, fun h => h⟩
  | cons r rs ih =>
    intro acc errs st res errs' st' heq
    simp only [resolveRoots] at heq
    cases hres : resolveRec env ic uv vc f r.1 r.2 st with
    | none =>
      rw [hres] at heq
      exact absurd heq (by simp)
    | some trip =>
      obtain ⟨pkg, es, stc⟩ := trip
      rw [hres] at heq
      obtain ⟨m1, m2, m3, m4, m5, m6⟩ :=
        resolveRec_ok env ic uv vc f r.1 r.2 st pkg es stc hres
      obtain ⟨l1, l2, l3, l4, l5, l6, l7⟩ :=
        ih (acc ++ [pkg]) (errs ++ es) stc res errs' st' heq
      refine ⟨m1.trans l1, by rw [l2, m2], fun h => l3 (m3 h), ?_, ?_, ?_, ?_⟩
      · intro hroots h
        exact l4 (fun x hx => hroots x (List.mem_cons_of_mem _ hx))
          (m4 (hroots r (List.mem_cons_self _ _)) h)
      · rw [l5]
        simp only [List.length_append, List.length_cons, List.length_nil]
        omega
      · intro hnd hin
        apply l6
        · rw [nsKeysList_append, nsKeysList_single]
          refine hnd.append m5.1 ?_
          intro k hk1 hk2
          exact (m5.2 k hk2).1 (hin k hk1)
        · rw [nsKeysList_append, nsKeysList_single]
          intro k hk
          rcases List.mem_append.mp hk with h | h
          · exact m1 (hin k h)
          · exact (m5.2 k h).2
      · intro hech
        apply l7
        rw [nodesOfList_append, nodesOfList_single]
        intro n hn m hm
        rcases List.mem_append.mp hn with h | h
        · obtain ⟨e, he1, t, he2⟩ := hech n h m hm
          exact ⟨e, List.mem_append_left _ he1, t, he2⟩
        · obtain ⟨e, he1, t, he2⟩ := m6 n h m hm
          exact ⟨e, List.mem_append_right _ he1, t, he2⟩

theorem logsWF_init : logsWF initState := by
  refine ⟨List.nodup_nil, ?_, List.nodup_nil, ?_⟩ <;> intro d hd <;> simp [initState] at hd

theorem noOfficial_init : noOfficial initState := by
  refine ⟨?_, ?_, ?_⟩ <;> intro d hd <;> simp [initState] at hd

/-- The key of the package a successful recursive call was made for is in the
visited set afterwards: it is inserted before the package's dependencies are
explored, and the loop only grows the set. -/
theorem resolveRec_key_visited (env : REnv) (ic uv : Bool) (vc : List String) :
    ∀ fuel pid ver st pkg errs st',
      resolveRec env ic uv vc fuel pid ver st = some (pkg, errs, st') →
      keyOf pid ver ∈ st'.visited := by
  intro fuel pid ver st pkg errs st' heq
  cases fuel with
  | zero => exact absurd heq (by simp [resolveRec])
  | succ f =>
    simp only [resolveRec] at heq
    by_cases hv : keyOf pid ver ∈ st.visited
    · rw [if_pos hv] at heq
      simp only [Option.some.injEq, Prod.mk.injEq] at heq
      obtain ⟨h1, h2, h3⟩ := heq
      subst h3
      exact hv
    · rw [if_neg hv] at heq
      by_cases hnf : uv = true ∧ pid ∉ vc ∧ env.existsInOrch pid = false
      · rw [if_pos hnf] at heq
        simp only [Option.some.injEq, Prod.mk.injEq] at heq
        obtain ⟨h1, h2, h3⟩ := heq
        subst h3
        exact List.mem_cons_self _ _
      · rw [if_neg hnf] at heq
        by_cases hdl : (env.download pid ver).1 = true
        · rw [if_pos hdl] at heq
          have key_of_loop :
              ∀ (ins : Bool) (ierrs : List String) (stE : RState),
                stE.visited = keyOf pid ver :: st.visited →
                depsLoop (resolveRec env ic uv vc f) (parseDeps env (env.download pid ver).2)
                  (.mk pid ver (some (env.download pid ver).2) [] true ins false none)
                  ierrs stE = some (pkg, errs, st') →
                keyOf pid ver ∈ st'.visited := by
            intro ins ierrs stE hE hloop
            have hmono :=
              (depsLoop_ok _ (resolveRec_ok env ic uv vc f) _ _ _ _ _ _ _ hloop).1
            apply hmono
            rw [hE]
            exact List.mem_cons_self _ _
          by_cases hic : ic = true
          · rw [if_pos hic] at heq
            by_cases hr : (env.install (env.download pid ver).2).1 = true
            · rw [if_pos hr] at heq
              exact key_of_loop true [] _ rfl heq
            · rw [if_neg hr] at heq
              exact key_of_loop false _ _ rfl heq
          · rw [if_neg hic] at heq
            exact key_of_loop false [] _ rfl heq
        · rw [if_neg hdl] at heq
          simp only [Option.some.injEq, Prod.mk.injEq] at heq
          obtain ⟨h1, h2, h3⟩ := heq
          subst h3
          exact List.mem_cons_self _ _

/-! ### Failed cache installs are echoed in the error list -/

/-- One recursive call only adds entries to the failed-install log whose
`Install failed <id>` message it also returns in its error list. -/
def StepInstOK
    (step : String → String → RState → Option (ResolvedPackage × List String × RState)) :
    Prop :=
  ∀ pid ver st pkg errs st', step pid ver st = some (pkg, errs, st') →
    ∀ d ∈ st'.installFailLog, d ∈ st.installFailLog ∨
      ∃ e ∈ errs, ∃ t, e = "Install failed " ++ d.1 ++ t

theorem depsLoop_instFail
    (step : String → String → RState → Option (ResolvedPackage × List String × RState))
    (hstep : StepInstOK step) :
    ∀ ds pkg errs st pkg' errs' st',
      depsLoop step ds pkg errs st = some (pkg', errs', st') →
      errs ⊆ errs' ∧
      ∀ d ∈ st'.installFailLog, d ∈ st.installFailLog ∨
        ∃ e ∈ errs', ∃ t, e = "Install failed " ++ d.1 ++ t := by
  intro ds
  induction ds with
  | nil =>
    intro pkg errs st pkg' errs' st' heq
    simp only [depsLoop, Option.some.injEq, Prod.mk.injEq] at heq
    obtain ⟨h1, h2, h3⟩ := heq
    subst h2; subst h3
    exact ⟨List.Subset.refl _, fun d hd => Or.inl hd⟩
  | cons d ds ih =>
    intro pkg errs st pkg' errs' st' heq
    simp only [depsLoop] at heq
    by_cases hoff : is_official_package d.1 = true
    · rw [if_pos hoff] at heq
      exact ih _ _ _ _ _ _ heq
    · rw [if_neg hoff] at heq
      cases hres : step d.1 d.2 st with
      | none =>
        rw [hres] at heq
        exact absurd heq (by simp)
      | some trip =>
        obtain ⟨child, cerrs, stc⟩ := trip
        rw [hres] at heq
        have hchild := hstep d.1 d.2 st child cerrs stc hres
        obtain ⟨l1, l2⟩ := ih _ _ _ _ _ _ heq
        refine ⟨?_, ?_⟩
        · intro e he
          exact l1 (List.mem_append_left _ he)
        · intro x hx
          rcases l2 x hx with h | h
          · rcases hchild x h with h2 | h2
            · exact Or.inl h2
            · obtain ⟨e, he, t, ht⟩ := h2
              exact Or.inr ⟨e, l1 (List.mem_append_right _ he), t, ht⟩
          · exact Or.inr h

theorem resolveRec_instFail (env : REnv) (ic uv : Bool) (vc : List String) :
    ∀ fuel, StepInstOK (resolveRec env ic uv vc fuel) := by
  intro fuel
  induction fuel with
  | zero =>
    intro pid ver st pkg errs st' heq
    exact absurd heq (by simp [resolveRec])
  | succ f ih =>
    intro pid ver st pkg errs st' heq
    simp only [resolveRec] at heq
    by_cases hv : keyOf pid ver ∈ st.visited
    · rw [if_pos hv] at heq
      simp only [Option.some.injEq, Prod.mk.injEq] at heq
      obtain ⟨h1, h2, h3⟩ := heq
      subst h3
      exact fun d hd => Or.inl hd
    · rw [if_neg hv] at heq
      by_cases hnf : uv = true ∧ pid ∉ vc ∧ env.existsInOrch pid = false
      · rw [if_pos hnf] at heq
        simp only [Option.some.injEq, Prod.mk.injEq] at heq
        obtain ⟨h1, h2, h3⟩ := heq
        subst h3
        exact fun d hd => Or.inl hd
      · rw [if_neg hnf] at heq
        by_cases hdl : (env.download pid ver).1 = true
        · rw [if_pos hdl] at heq
          by_cases hic : ic = true
          · rw [if_pos hic] at heq
            by_cases hr : (env.install (env.download pid ver).2).1 = true
            · rw [if_pos hr] at heq
              obtain ⟨l1, l2⟩ := depsLoop_instFail _ ih _ _ _ _ _ _ _ heq
              intro d hd
              rcases l2 d hd with h | h
              · exact Or.inl h
              · exact Or.inr h
            · rw [if_neg hr] at heq
              obtain ⟨l1, l2⟩ := depsLoop_instFail _ ih _ _ _ _ _ _ _ heq
              intro d hd
              rcases l2 d hd with h | h
              · have h' : d ∈ (pid, ver) :: st.installFailLog := h
                rcases List.mem_cons.mp h' with h2 | h2
                · subst h2
                  refine Or.inr ⟨"Install failed " ++ pid ++
                    (": " ++ (env.install (env.download pid ver).2).2), ?_,
                    ": " ++ (env.install (env.download pid ver).2).2, rfl⟩
                  exact l1 (List.mem_singleton_self _)
                · exact Or.inl h2
              · exact Or.inr h
          · rw [if_neg hic] at heq
            obtain ⟨l1, l2⟩ := depsLoop_instFail _ ih _ _ _ _ _ _ _ heq
            intro d hd
            rcases l2 d hd with h | h
            · exact Or.inl h
            · exact Or.inr h
        · rw [if_neg hdl] at heq
          simp only [Option.some.injEq, Prod.mk.injEq] at heq
          obtain ⟨h1, h2, h3⟩ := heq
          subst h3
          exact fun d hd => Or.inl hd

theorem resolveRoots_instFail (env : REnv) (ic uv : Bool) (vc : List String) (f : Nat) :
    ∀ rs acc errs st res errs' st',
      resolveRoots env ic uv vc f rs acc errs st = some (res, errs', st') →
      errs ⊆ errs' ∧
      ∀ d ∈ st'.installFailLog, d ∈ st.installFailLog ∨
        ∃ e ∈ errs', ∃ t, e = "Install failed " ++ d.1 ++ t := by
  intro rs
  induction rs with
  | nil =>
    intro acc errs st res errs' st' heq
    simp only [resolveRoots, Option.some.injEq, Prod.mk.injEq] at heq
    obtain ⟨h1, h2, h3⟩ := heq
    subst h2; subst h3
    exact ⟨List.Subset.refl _, fun d hd => Or.inl hd⟩
  | cons r rs ih =>
    intro acc errs st res errs' st' heq
    simp only [resolveRoots] at heq
    cases hres : resolveRec env ic uv vc f r.1 r.2 st with
    | none =>
      rw [hres] at heq
      exact absurd heq (by simp)
    | some trip =>
      obtain ⟨pkg, es, stc⟩ := trip
      rw [hres] at heq
      have hroot := resolveRec_instFail env ic uv vc f r.1 r.2 st pkg es stc hres
      obtain ⟨l1, l2⟩ := ih _ _ _ _ _ _ heq
      refine ⟨?_, ?_⟩
      · intro e he
        exact l1 (List.mem_append_left _ he)
      · intro x hx
        rcases l2 x hx with h | h
        · rcases hroot x h with h2 | h2
          · exact Or.inl h2
          · obtain ⟨e, he, t, ht⟩ := h2
            exact Or.inr ⟨e, l1 (List.mem_append_right _ he), t, ht⟩
        · exact Or.inr h

/-! ### Concrete sessions used by the claims -/

/-- Two roots sharing the transitive dependency D (claims C2 and C10). -/
def envShared : REnv :=
  { existsInOrch := fun _ => true,
    download := fun pid ver => (true, pid ++ "." ++ ver ++ ".nupkg"),
    install := fun _ => (true, "ok"),
    archives := [("R1.1.0.nupkg", [("D", "1.0")]),
                 ("R2.1.0.nupkg", [("D", "1.0")]),
                 ("D.1.0.nupkg", [])] }

/-- The concrete run of the shared-dependency session: D is fully resolved
under R1 and appears as a skipped stub under R2. -/
theorem envShared_run :
    resolve_all envShared true false [] [("R1", "1.0"), ("R2", "1.0")] =
      some ([.mk "R1" "1.0" (some "R1.1.0.nupkg")
               [.mk "D" "1.0" (some "D.1.0.nupkg") [] true true false none]
               true true false none,
             .mk "R2" "1.0" (some "R2.1.0.nupkg")
               [.mk "D" "1.0" none [] true false true none]
               true true false none],
            [],
            { visited := [("r2", "1.0"), ("d", "1.0"), ("r1", "1.0")],
              downloaded := 3, installed := 3, skipped := 0, failed := 0,
              visitLog := [("R2", "1.0"), ("D", "1.0"), ("R1", "1.0")],
              downloadLog := [("R2", "1.0"), ("D", "1.0"), ("R1", "1.0")],
              installLog := [("R2", "1.0"), ("D", "1.0"), ("R1", "1.0")],
              installFailLog := [] }) := rfl

/-- A session whose only root fails to download (claims C4, C6, C10). -/
def envFail : REnv :=
  { existsInOrch := fun _ => true,
    download := fun _ _ => (false, "boom"),
    install := fun _ => (true, "ok"),
    archives := [] }

def resFail : List ResolvedPackage :=
  [.mk "A" "1.0" none [] false false false (some "boom")]

def stFail : RState :=
  { visited := [("a", "1.0")], downloaded := 0, installed := 0, skipped := 0, failed := 1,
    visitLog := [("A", "1.0")], downloadLog := [("A", "1.0")], installLog := [],
    installFailLog := [] }

theorem envFail_run :
    resolve_all envFail true false [] [("A", "1.0")] =
      some (resFail, ["A@1.0: boom"], stFail) := rfl

/-- A state in which the pair ("A", "1.0") has already been visited. -/
def stVisitedA : RState :=
  { visited := [("a", "1.0")], downloaded := 0, installed := 0, skipped := 0, failed := 0,
    visitLog := [], downloadLog := [], installLog := [], installFailLog := [] }

/-- A session whose only root downloads but fails to install to the cache
(claim C4): install errors are reported in the error list, not on the node. -/
def envInstFail : REnv :=
  { existsInOrch := fun _ => true,
    download := fun pid ver => (true, pid ++ "." ++ ver ++ ".nupkg"),
    install := fun _ => (false, "disk full"),
    archives := [("A.1.0.nupkg", [])] }

theorem envInstFail_run :
    resolve_all envInstFail true false [] [("A", "1.0")] =
      some ([.mk "A" "1.0" (some "A.1.0.nupkg") [] true false false none],
            ["Install failed A: disk full"],
            { visited := [("a", "1.0")], downloaded := 1, installed := 0, skipped := 0,
              failed := 0, visitLog := [("A", "1.0")], downloadLog := [("A", "1.0")],
              installLog := [("A", "1.0")],
              installFailLog := [("A", "1.0")] }) := rfl

/-- A session whose only root downloads a file that is not a readable
archive: `parse_nuspec_dependencies` catches the `BadZipFile`, prints a
warning, and returns the empty list (modelled by the downloaded path being
absent from `archives`), so resolution proceeds as if the package had no
dependencies. -/
def envBadZip : REnv :=
  { existsInOrch := fun _ => true,
    download := fun pid ver => (true, pid ++ "." ++ ver ++ ".nupkg"),
    install := fun _ => (true, "ok"),
    archives := [] }

/-! ### The resolver claims -/

/--
Claim C1: for every finite set of root packages and every dependency graph —
including cyclic ones — `resolve_all` terminates (its fuel bound suffices, so
every session returns a result); each `(packageId.lower(), version)` pair is
fully resolved at most once per session (the non-skipped nodes of the result
forest have pairwise distinct keys); a re-encounter of an already-visited
pair returns a stub node with `was_skipped = true` (and `is_downloaded =
true`, no error, no children) instead of recursing; and the key of every
resolved package is in the visited set when its call returns, having been
inserted before the package's own dependencies were explored.
-/
theorem claim_c1_cycle_termination_unique_visits :
    (∀ (env : REnv) (ic uv : Bool) (vc : List String) (roots : List (String × String)),
      (resolve_all env ic uv vc roots).isSome) ∧
    (∀ (env : REnv) (ic uv : Bool) (vc : List String) (roots : List (String × String))
        (res : List ResolvedPackage) (errs : List String) (st : RState),
      resolve_all env ic uv vc roots = some (res, errs, st) → (nsKeysList res).Nodup) ∧
    (∀ (env : REnv) (ic uv : Bool) (vc : List String) (fuel : Nat) (pid ver : String)
        (st : RState), keyOf pid ver ∈ st.visited →
      resolveRec env ic uv vc (fuel + 1) pid ver st =
        some (.mk pid ver none [] true false true none, [], st)) ∧
    (∀ (env : REnv) (ic uv : Bool) (vc : List String) (fuel : Nat) (pid ver : String)
        (st : RState) (pkg : ResolvedPackage) (errs : List String) (st' : RState),
      resolveRec env ic uv vc fuel pid ver st = some (pkg, errs, st') →
      keyOf pid ver ∈ st'.visited) := by
  refine ⟨resolve_all_isSome, ?_, ?_, resolveRec_key_visited⟩
  · intro env ic uv vc roots res errs st heq
    have h :=
      (resolveRoots_ok env ic uv vc _ roots [] [] initState res errs st heq).2.2.2.2.2.1
    apply h
    · simp [nsKeysList, nodesOfList]
    · intro k hk
      simp [nsKeysList, nodesOfList] at hk
  · intro env ic uv vc fuel pid ver st hv
    simp only [resolveRec]
    rw [if_pos hv]

/-- Witness for C1: re-encountering the already-visited pair ("A", "1.0")
returns the skipped stub and leaves the state untouched. -/
theorem claim_c1_witness :
    resolveRec envFail true false [] 1 "A" "1.0" stVisitedA =
      some (.mk "A" "1.0" none [] true false true none, [], stVisitedA) :=
  claim_c1_cycle_termination_unique_visits.2.2.1 envFail true false [] 0 "A" "1.0"
    stVisitedA (by decide)

/--
Claim C2: in one `resolve_all` session each `(packageId.lower(), version)`
pair is passed to the download collaborator at most once and to the cache
installer at most once, however many roots or paths reach it (the call logs
are duplicate-free); in the concrete two-root scenario `envShared`, where
both roots depend on the same package D, D is downloaded and installed
exactly once, while `count_total_packages` counts nodes of the result forest
— D appears under both roots, so the transitive count is 2 and D itself has
two tree nodes, more than its single download.
-/
theorem claim_c2_shared_dependency_single_download :
    (∀ (env : REnv) (ic uv : Bool) (vc : List String) (roots : List (String × String))
        (res : List ResolvedPackage) (errs : List String) (st : RState),
      resolve_all env ic uv vc roots = some (res, errs, st) →
      (st.downloadLog.map keyD).Nodup ∧ (st.installLog.map keyD).Nodup) ∧
    ((resolve_all envShared true false [] [("R1", "1.0"), ("R2", "1.0")]).map fun r =>
        (r.2.2.downloadLog.count ("D", "1.0"), r.2.2.installLog.count ("D", "1.0"),
         count_total_packages r.1,
         ((nodesOfList r.1).filter fun n => n.package_id == "D").length)) =
      some (1, 1, (2, 2), 2) := by
  constructor
  · intro env ic uv vc roots res errs st heq
    have h := (resolveRoots_ok env ic uv vc _ roots [] [] initState res errs st heq).2.2.1
      logsWF_init
    exact ⟨h.1, h.2.2.1⟩
  · rw [envShared_run]
    decide

/-- Witness for C2: duplicate-freeness of the collaborator call logs in the
concrete failing-download session. -/
theorem claim_c2_witness :
    (stFail.downloadLog.map keyD).Nodup ∧ (stFail.installLog.map keyD).Nodup :=
  claim_c2_shared_dependency_single_download.1 envFail true false [] [("A", "1.0")]
    resFail ["A@1.0: boom"] stFail envFail_run

/--
Counterexample for claim C4 as stated: the claim asserts that every failure —
explicitly including an unreadable archive — is captured as a string in the
affected node's error field and/or the aggregated error list.  In the
`envBadZip` session the only root downloads successfully but its archive is
unreadable (`parse_nuspec_dependencies` catches the `BadZipFile` at
dependency_resolver.py lines 124-125, prints a warning, and returns `[]`):
the session ends with an empty aggregated error list and the node's error
field `none` — the failure is captured nowhere, indistinguishable from an
archive that declares no dependencies.
-/
theorem claim_c4_counterexample :
    ((resolve_all envBadZip true false [] [("A", "1.0")]).map fun r =>
        (r.2.1, (nodesOfList r.1).map fun n => n.error)) = some ([], [none]) := rfl

/--
Claim C4 (amended): no exception escapes `resolve_all`/`_resolve_recursive`:
in this embedding both are total functions and every session returns a result
(first conjunct); resolution continues with sibling dependencies and the
remaining roots — the result list has exactly one node per root; the failures
that produce an error string are captured: each errored node of the result
forest (download failures and registry misses set the node's error field)
has a matching entry in the aggregated error list prefixed by the node's
`id@version`, and every failed cache install is reported in the aggregated
error list under `Install failed <id>` while leaving the node's error field
`none` and the node downloaded (install failure is non-fatal) — concretely
exercised by the `envInstFail` session.  An unreadable archive, by contrast,
is captured nowhere (see the counterexample): it is reported only as a
printed warning and yields an empty dependency list.
-/
theorem claim_c4_no_exception_error_capture :
    (∀ (env : REnv) (ic uv : Bool) (vc : List String) (roots : List (String × String)),
      (resolve_all env ic uv vc roots).isSome) ∧
    (∀ (env : REnv) (ic uv : Bool) (vc : List String) (roots : List (String × String))
        (res : List ResolvedPackage) (errs : List String) (st : RState),
      resolve_all env ic uv vc roots = some (res, errs, st) →
      res.length = roots.length ∧
      (∀ n ∈ nodesOfList res, ∀ m, n.error = some m →
        ∃ e ∈ errs, ∃ t, e = n.package_id ++ "@" ++ n.version ++ t) ∧
      (∀ d ∈ st.installFailLog, ∃ e ∈ errs, ∃ t, e = "Install failed " ++ d.1 ++ t)) ∧
    ((resolve_all envInstFail true false [] [("A", "1.0")]).map fun r =>
        (r.2.1, (nodesOfList r.1).map fun n => (n.error, n.is_downloaded, n.is_installed))) =
      some (["Install failed A: disk full"], [(none, true, false)]) := by
  refine ⟨resolve_all_isSome, ?_, ?_⟩
  · intro env ic uv vc roots res errs st heq
    obtain ⟨-, -, -, -, l5, -, l7⟩ :=
      resolveRoots_ok env ic uv vc _ roots [] [] initState res errs st heq
    refine ⟨by simpa using l5, ?_, ?_⟩
    · apply l7
      intro n hn
      simp [nodesOfList] at hn
    · intro d hd
      rcases (resolveRoots_instFail env ic uv vc _ roots [] [] initState
          res errs st heq).2 d hd with h | h
      · simp [initState] at h
      · exact h
  · rw [envInstFail_run]
    decide

/-- Witness for C4: the concrete failing-download session returns one node
for its one root. -/
theorem claim_c4_witness : resFail.length = [("A", "1.0")].length :=
  (claim_c4_no_exception_error_capture.2.1 envFail true false [] [("A", "1.0")]
    resFail ["A@1.0: boom"] stFail envFail_run).1

/--
Claim C6: `"System.Activities"` and `"UiPath.Mail.Activities"` match the
official prefix list; and in every session whose root packages are not
official, no official package id — regardless of its declared version — is
ever inserted into the visited set or passed to the download collaborator:
the official-prefix check short-circuits the recursion before the
visit/download step.
-/
theorem claim_c6_official_packages_never_visited :
    is_official_package "System.Activities" = true ∧
    is_official_package "UiPath.Mail.Activities" = true ∧
    (∀ (env : REnv) (ic uv : Bool) (vc : List String) (roots : List (String × String))
        (res : List ResolvedPackage) (errs : List String) (st : RState),
      (∀ r ∈ roots, is_official_package r.1 = false) →
      resolve_all env ic uv vc roots = some (res, errs, st) →
      (st.visitLog.all fun d => !is_official_package d.1) = true ∧
      (st.downloadLog.all fun d => !is_official_package d.1) = true) := by
  refine ⟨by decide, by decide, ?_⟩
  intro env ic uv vc roots res errs st hroots heq
  have h := (resolveRoots_ok env ic uv vc _ roots [] [] initState res errs st heq).2.2.2.1
    hroots noOfficial_init
  obtain ⟨o1, o2, o3⟩ := h
  constructor
  · rw [List.all_eq_true]
    intro d hd
    simp [o1 d hd]
  · rw [List.all_eq_true]
    intro d hd
    simp [o2 d hd]

/-- Witness for C6: the logs of the concrete failing-download session hold no
official package id. -/
theorem claim_c6_witness :
    (stFail.visitLog.all fun d => !is_official_package d.1) = true ∧
    (stFail.downloadLog.all fun d => !is_official_package d.1) = true :=
  claim_c6_official_packages_never_visited.2.2 envFail true false [] [("A", "1.0")]
    resFail ["A@1.0: boom"] stFail (by decide) envFail_run

/--
Claim C10 (implicit): the `skipped` statistics counter is dead state — it is
zeroed by `reset_stats` at the start of every `resolve_all` call and no
operation ever increments it, so the final state of every session reports
`skipped = 0`; this holds even when already-visited packages were returned as
skipped stub nodes during the session, as in the concrete `envShared` run,
whose result forest contains one `was_skipped` stub while the counter is 0.
-/
theorem claim_c10_skipped_counter_dead :
    (∀ (env : REnv) (ic uv : Bool) (vc : List String) (roots : List (String × String))
        (res : List ResolvedPackage) (errs : List String) (st : RState),
      resolve_all env ic uv vc roots = some (res, errs, st) → st.skipped = 0) ∧
    ((resolve_all envShared true false [] [("R1", "1.0"), ("R2", "1.0")]).map fun r =>
        (r.2.2.skipped, ((nodesOfList r.1).filter fun n => n.was_skipped).length)) =
      some (0, 1) := by
  constructor
  · intro env ic uv vc roots res errs st heq
    have h := (resolveRoots_ok env ic uv vc _ roots [] [] initState res errs st heq).2.1
    simpa [initState] using h
  · rw [envShared_run]
    decide

/-- Witness for C10: the concrete failing-download session reports
`skipped = 0`. -/
theorem claim_c10_witness : stFail.skipped = 0 :=
  claim_c10_skipped_counter_dead.1 envFail true false [] [("A", "1.0")] resFail
    ["A@1.0: boom"] stFail envFail_run

end PyCoord
